import Mathlib

/-!
# shell208: command-line parsing

A shallow embedding of `shell208.c`: the parser (`is_pipe`, `count_args`, `set_redirection`,
`parse_args` and the parsing phase of `get_command`), the input phase of `get_command` on a model
of standard input, and the launcher (`execute_command`, `execute_single_command`,
`redirect_stdout`, `redirect_stdin`) as the sequence of calls of one process, followed by the
properties proved about them.

Conventions of the embedding.

* A `char` array is a `List Char`.  Reading one position past the end of the list yields the
  terminator `NUL`, so a list without `NUL` is the content of a C string and a list with an
  embedded `NUL` is a buffer with stale bytes behind its terminator.
* A cursor `command_buffer + i` is the list of the characters from position `i` on, so `i++`
  is `List.tail` and `command_buffer[i]` is `peek`.
* `while` loops whose termination is not structural take a `fuel` argument that bounds the
  number of iterations; running out of fuel is `none`.
* `parse_args` stores into freshly allocated blocks.  A block is represented by what is written to
  it: the characters copied to the indices `0, 1, ...` and the index that receives the terminator.
  `argv_memory` applies these stores to the blocks that `malloc` returns, and `argv_strings` reads
  the C strings that result.
* The input phase keeps the value of `getchar` in a `char`; whether `char` is a signed type is the
  parameter `signed_char`.
* A store into `outputLocation` or `inputLocation` is `List.set`, which drops a store beyond the
  end of the array.  The statements about these arrays are for lines of at most
  `MAX_COMMAND_SIZE` characters and arrays of `LOCATION_SIZE` bytes, where every store is inside.
* The launcher is described process by process: the value that each system call returns in the
  process is a field of `Sys`, the calls made are listed in `Proc.trace`, and the descriptor table
  is a function from descriptors to what they refer to.
-/

namespace Shell208

/-- The terminator `'\0'`. -/
def NUL : Char := Char.ofNat 0

/-- The macro `COMMAND_BUFFER_SIZE`. -/
def COMMAND_BUFFER_SIZE : Nat := 102

/-- The macro `MAX_COMMAND_SIZE`, that is `COMMAND_BUFFER_SIZE - 2`. -/
def MAX_COMMAND_SIZE : Nat := COMMAND_BUFFER_SIZE - 2

/-- The size of `outputLocation` and `inputLocation` in `main`. -/
def LOCATION_SIZE : Nat := 100

/-- A `char` array that is written through an index (`outputLocation`, `inputLocation`). -/
abbrev Mem := List Char

/-- The character under a cursor: `command_buffer[i]`. -/
def peek (s : List Char) : Char := s.headD NUL

/-- The C string held by an array: its characters before the first terminator. -/
def cstr (m : Mem) : List Char := m.takeWhile (fun c => c != NUL)

/-- The negation of the loop guard of `count_args`,
`c != '\0' && c != '>' && c != '<' && c != '|'`. -/
def is_stop (c : Char) : Bool := c == NUL || c == '>' || c == '<' || c == '|'

/-- The loop `while (command_buffer[i] == ' ') i++;` (in `count_args` and `parse_args` the guard
also has the conjunct `command_buffer[i] != '\0'`, which a space satisfies). -/
def skip_spaces : List Char → List Char
  | [] => []
  | c :: cs => if c = ' ' then skip_spaces cs else c :: cs

/-- The loop of `is_pipe`, with the running index `i`. -/
def is_pipe_loop : List Char → Nat → Nat
  | [], _ => 0
  | c :: cs, i => if c = NUL then 0 else if c = '|' then i else is_pipe_loop cs (i + 1)

/-- The function `is_pipe`: the index of the first `'|'`, or `0`. -/
def is_pipe (command_buffer : List Char) : Nat := is_pipe_loop command_buffer 0

/-- The copy loop of `set_redirection`,
`while (command_buffer[i] != ' ' && command_buffer[i] != '\0')
   { location[stringIndex] = command_buffer[i]; stringIndex++; i++; }`.
Returns the cursor `command_buffer + i`, the array and `stringIndex`. -/
def copy_location : List Char → Mem → Nat → List Char × Mem × Nat
  | [], location, stringIndex => ([], location, stringIndex)
  | c :: cs, location, stringIndex =>
    if c ≠ ' ' ∧ c ≠ NUL then copy_location cs (location.set stringIndex c) (stringIndex + 1)
    else (c :: cs, location, stringIndex)

/-- The function `set_redirection`, from the cursor `command_buffer + index`.
Returns `outputLocation` and `inputLocation`. -/
def set_redirection : Nat → List Char → Mem → Mem → Option (Mem × Mem)
  | 0, _, _, _ => none
  | fuel + 1, s, outputLocation, inputLocation =>
    if peek s ≠ NUL ∧ peek s ≠ '|' then
      let s1 := skip_spaces s
      if peek s1 = '>' then
        let s2 := skip_spaces s1.tail
        let r := copy_location s2 outputLocation 0
        set_redirection fuel r.1 (r.2.1.set r.2.2 NUL) inputLocation
      else if peek s1 = '<' then
        let s2 := skip_spaces s1.tail
        let r := copy_location s2 inputLocation 0
        set_redirection fuel r.1 outputLocation (r.2.1.set r.2.2 NUL)
      else set_redirection fuel s1 outputLocation inputLocation
    else some (outputLocation, inputLocation)

/-- The counting loop of `count_args`, with the running `number_of_spaces`.
Returns `number_of_spaces` and the cursor at which the loop stopped. -/
def count_loop : Nat → List Char → Nat → Option (Nat × List Char)
  | 0, _, _ => none
  | fuel + 1, s, number_of_spaces =>
    if is_stop (peek s) = false then
      if peek s = ' ' then
        let s1 := skip_spaces s
        if is_stop (peek s1) = false then count_loop fuel s1 (number_of_spaces + 1)
        else count_loop fuel s1 number_of_spaces
      else count_loop fuel s.tail number_of_spaces
    else some (number_of_spaces, s)

/-- The function `count_args`.  Returns the number of arguments together with `outputLocation`
and `inputLocation` as `set_redirection` left them. -/
def count_args (fuel : Nat) (command_buffer : List Char) (outputLocation inputLocation : Mem)
    (index : Nat) : Option (Nat × Mem × Mem) :=
  match count_loop fuel (skip_spaces (command_buffer.drop index)) 0 with
  | none => none
  | some (number_of_spaces, s) =>
    match set_redirection fuel s outputLocation inputLocation with
    | none => none
    | some (out, inp) => some (number_of_spaces + 1, out, inp)

/-- What `parse_args` writes to the block `my_argv[k]`: `chars` at the indices
`0 .. chars.length - 1`, then the terminator at index `nul`. -/
structure Arg where
  /-- The characters copied, in order, to the indices from 0 on. -/
  chars : List Char
  /-- The index that receives the terminator. -/
  nul : Nat
  deriving DecidableEq

/-- The copy loop of `parse_args`,
`while (command_buffer[currentPosition] != ' ' && command_buffer[currentPosition] != '\0')
   { my_argv[k][positionInArg] = command_buffer[currentPosition]; positionInArg++;
     currentPosition++; }`.
Returns the characters copied and the cursor. -/
def copy_arg : List Char → List Char × List Char
  | [] => ([], [])
  | c :: cs =>
    if c ≠ ' ' ∧ c ≠ NUL then ((copy_arg cs).1.cons c, (copy_arg cs).2) else ([], c :: cs)

/-- The function `parse_args`, from the cursor `command_buffer + index`: one block for each of the
`number_of_args` arguments. After the copy loop `positionInArg` is the number of characters
copied; it is incremented once more before the terminator is stored. The statement
`currentPosition++` that follows the copy loop is `List.tail`; a cursor already at the end of the
list stays there. The result lists the stores into each block; the blocks themselves, from the
value that `malloc` returns, with the exit when it returns `NULL`, are in `argv_memory`. -/
def parse_args : Nat → List Char → List Arg
  | 0, _ => []
  | number_of_args + 1, s =>
    let r := copy_arg (skip_spaces s)
    { chars := r.1, nul := r.1.length + 1 } :: parse_args number_of_args r.2.tail

/-- The value returned by `get_command` together with the two location arrays. -/
structure Parsed where
  /-- The argument vector `parsed_elements[0]`. -/
  first : List Arg
  /-- The argument vector `parsed_elements[1]`; `none` is `NULL`. -/
  second : Option (List Arg)
  /-- The array `outputLocation` after parsing. -/
  outputLocation : Mem
  /-- The array `inputLocation` after parsing. -/
  inputLocation : Mem
  deriving DecidableEq

/-- The parsing phase of `get_command`: the statements that follow the replacement of the newline
by the terminator, applied to the content of `command_buffer`. -/
def get_command (fuel : Nat) (command_buffer : List Char) (outputLocation inputLocation : Mem) :
    Option Parsed :=
  let pipe_index := is_pipe command_buffer
  match count_args fuel command_buffer outputLocation inputLocation 0 with
  | none => none
  | some (number_of_args, out, inp) =>
    let my_argv := parse_args number_of_args (command_buffer.drop 0)
    if pipe_index ≠ 0 then
      match count_args fuel command_buffer out inp (pipe_index + 1) with
      | none => none
      | some (number_of_args2, out2, inp2) =>
        some { first := my_argv,
               second := some (parse_args number_of_args2 (command_buffer.drop (pipe_index + 1))),
               outputLocation := out2, inputLocation := inp2 }
    else some { first := my_argv, second := none, outputLocation := out, inputLocation := inp }

/-- The statement `location[0] = '\0';` with which `main` prepares `outputLocation` and
`inputLocation` before each call of `get_command`. -/
def clear_location (location : Mem) : Mem := location.set 0 NUL

/-- The characters copied into each block of an argument vector, in order. This is the store log
of the copy loops, not the C string that a block holds afterwards, which also depends on where the
terminator goes and on what the block held before: see `argv_strings`. -/
def tokens (argv : List Arg) : List (List Char) := argv.map Arg.chars

/-! ## Vocabulary of the statements -/

/-- A character that can occur in a word or a path: not a space, not the terminator and none of
the operators. -/
def plain (c : Char) : Bool := c != ' ' && !is_stop c

/-- A word (or a path): a non-empty run of plain characters. -/
def is_word (w : List Char) : Prop := w ≠ [] ∧ ∀ c ∈ w, plain c = true

instance (w : List Char) : Decidable (is_word w) := by unfold is_word; infer_instance

/-- A run of `k` spaces. -/
def spaces (k : Nat) : List Char := List.replicate k ' '

/-- Words laid out one after the other, each preceded by one space and `k` further spaces. -/
def spaced_tail : List (Nat × List Char) → List Char
  | [] => []
  | (k, w) :: r => spaces (k + 1) ++ w ++ spaced_tail r

/-- Words separated by runs of one or more spaces: the first word is preceded by `k` spaces, every
later one by `k + 1` spaces, where `k` is the number paired with the word. -/
def spaced : List (Nat × List Char) → List Char
  | [] => []
  | (k, w) :: r => spaces k ++ w ++ spaced_tail r

/-- An array after a path and its terminator have been written from index 0 on. -/
def store (location : Mem) (path : List Char) : Mem :=
  path ++ NUL :: location.drop (path.length + 1)

/-- The maximal runs of non-space characters of a text, in order. -/
def words (text : List Char) : List (List Char) :=
  (text.splitOn ' ').filter (fun w => w ≠ [])

/-- The text of a segment: from the start offset up to the first of `>`, `<`, `|` or the
terminator. -/
def segment_text (buf : List Char) (index : Nat) : List Char :=
  (buf.drop index).takeWhile (fun c => !is_stop c)

/-- What follows the text of a segment: the buffer from the first of `>`, `<`, `|` or the
terminator on. -/
def segment_rest (buf : List Char) (index : Nat) : List Char :=
  (buf.drop index).dropWhile (fun c => !is_stop c)

/-- Words separated by single spaces. -/
def join_words (ws : List (List Char)) : List Char := List.intercalate [' '] ws

/-- The layout of words separated by single spaces. -/
def single_spaced (ws : List (List Char)) : List (Nat × List Char) := ws.map (fun w => (0, w))

/-- Tokenizing from offset 0: `count_args`, then `parse_args` for the count it returned, as in
`get_command`. -/
def tokenize (fuel : Nat) (buf : List Char) (out inp : Mem) : Option (List (List Char)) :=
  (count_args fuel buf out inp 0).map (fun r => tokens (parse_args r.1 (buf.drop 0)))

/-- A character that is neither the pipe character nor the terminator. -/
def pipe_free (c : Char) : Prop := c ≠ '|' ∧ c ≠ NUL

/-- The operator `<` with its path, then `>` with its path. -/
def in_out (a b : List Char) : List Char := "< ".toList ++ (a ++ (" > ".toList ++ b))

/-- The operator `>` with its path, then `<` with its path. -/
def out_in (b a : List Char) : List Char := "> ".toList ++ (b ++ (" < ".toList ++ a))

/-- The operator `>` twice, each with its path. -/
def out_out (p1 p2 : List Char) : List Char := "> ".toList ++ (p1 ++ (" > ".toList ++ p2))

/-- The operator `<` twice, each with its path. -/
def in_in (p1 p2 : List Char) : List Char := "< ".toList ++ (p1 ++ (" < ".toList ++ p2))

/-- The blocks that `parse_args` fills for words: each word, with the terminator one index
after the end of the word. -/
def word_args (ws : List (List Char)) : List Arg :=
  ws.map (fun w => { chars := w, nul := w.length + 1 })

/-- The line `ws1 < a | ws2 > b`, single spaces around each operator. -/
def piped_line (ws1 : List (List Char)) (a : List Char) (ws2 : List (List Char))
    (b : List Char) : List Char :=
  join_words ws1 ++ (" < ".toList ++ (a ++ (" | ".toList ++ (join_words ws2
    ++ (" > ".toList ++ b)))))

/-! ## The input phase of `get_command` -/

/-- The status value `COMMAND_INPUT_SUCCEEDED`. -/
def COMMAND_INPUT_SUCCEEDED : Nat := 0

/-- The status value `COMMAND_INPUT_FAILED`. -/
def COMMAND_INPUT_FAILED : Nat := 1

/-- The status value `COMMAND_END_OF_FILE`. -/
def COMMAND_END_OF_FILE : Nat := 2

/-- The status value `COMMAND_TOO_LONG`. -/
def COMMAND_TOO_LONG : Nat := 3

/-- Standard input: the characters not yet read, and whether the stream ends with a read error
instead of an end of file. -/
structure Stdin where
  /-- The characters not yet read. -/
  chars : List Char
  /-- Whether reading past the last character is a read error. -/
  error : Bool
  deriving DecidableEq

/-- The reading loop of the library function `fgets` for at most `n` characters: it stops after a
newline. Returns the characters stored, the characters left in the stream and whether the end of
the stream was hit. -/
def fgets_loop : Nat → List Char → List Char × List Char × Bool
  | 0, s => ([], s, false)
  | _ + 1, [] => ([], [], true)
  | n + 1, c :: cs =>
    if c = '\n' then ([c], cs, false)
    else ((fgets_loop n cs).1.cons c, (fgets_loop n cs).2)

/-- The value `EOF`. -/
def EOF : Int := -1

/-- The value that `getchar` returns for a character of the stream: its code as an
`unsigned char`. -/
def getchar_value (c : Char) : Int := ((c.toNat % 256 : Nat) : Int)

/-- The conversion of the `int` returned by `getchar` to the `char` variable `ch`, as the
comparisons of `ch` then see it. Where `char` is signed the values from 128 on become negative, so
the byte 255 becomes -1; where `char` is unsigned, `EOF` becomes 255. -/
def to_char (signed_char : Bool) (value : Int) : Int :=
  if signed_char = true ∧ 128 ≤ value % 256 then value % 256 - 256 else value % 256

/-- The loop `char ch = getchar(); while (ch != '\n' && ch != EOF) ch = getchar();` of
`get_command`: the stream after the loop. The loop ends at a newline and at whatever `ch` compares
equal to `EOF`: with a signed `char` that is the end of the stream and also the byte 255. The
result is `none` when the loop does not end: at the end of the stream every call of `getchar`
returns `EOF`, which an unsigned `char` holds as 255. -/
def discard_line (signed_char : Bool) : List Char → Option (List Char)
  | [] =>
    if to_char signed_char EOF ≠ getchar_value '\n' ∧ to_char signed_char EOF ≠ EOF then none
    else some []
  | c :: cs =>
    if to_char signed_char (getchar_value c) ≠ getchar_value '\n'
        ∧ to_char signed_char (getchar_value c) ≠ EOF then
      discard_line signed_char cs
    else some cs

/-- What the input phase of `get_command` leaves behind. -/
structure Input where
  /-- The value of `*status`. -/
  status : Nat
  /-- The content of `command_buffer` when parsing starts; `none` when `get_command` has returned
  `NULL` before. -/
  command_buffer : Option (List Char)
  /-- Standard input afterwards. -/
  stdin : Stdin
  deriving DecidableEq

/-- The input phase of `get_command`, up to the statement that replaces the newline by the
terminator. `status` is the value `main` has stored in `*status` before the call. `fgets` stores
the characters read and a terminator; `strlen` is the length of the C string then held by the
buffer. The result is `none` when `command_length` is 0, where `command_buffer[command_length - 1]`
is an access in front of the array, and when the loop that discards the rest of the line does
not end. `signed_char` tells whether `char` is a signed type on the target. -/
def get_command_input (signed_char : Bool) (buffer_size : Nat) (status : Nat) (stdin : Stdin) :
    Option Input :=
  let r := fgets_loop (buffer_size - 1) stdin.chars
  if r.2.2 = true ∧ (r.1 = [] ∨ stdin.error = true) then
    if stdin.error = false then
      some { status := COMMAND_END_OF_FILE, command_buffer := none,
             stdin := { stdin with chars := r.2.1 } }
    else
      some { status := COMMAND_INPUT_FAILED, command_buffer := none,
             stdin := { stdin with chars := r.2.1 } }
  else
    let command_length := (cstr r.1).length
    if command_length = 0 then none
    else if r.1.getD (command_length - 1) NUL ≠ '\n' then
      match discard_line signed_char r.2.1 with
      | none => none
      | some rest =>
        some { status := COMMAND_TOO_LONG,
               command_buffer := some (r.1.set (command_length - 1) NUL),
               stdin := { stdin with chars := rest } }
    else
      some { status := status,
             command_buffer := some (r.1.set (command_length - 1) NUL),
             stdin := { stdin with chars := r.2.1 } }

/-- The whole of `get_command`: the input phase, then, unless `NULL` was returned, the parsing
phase on the buffer, also after the status `COMMAND_TOO_LONG` has been set. Returns the status,
the value returned and standard input. -/
def get_command_stdin (signed_char : Bool) (fuel buffer_size status : Nat) (stdin : Stdin)
    (outputLocation inputLocation : Mem) : Option (Nat × Option Parsed × Stdin) :=
  match get_command_input signed_char buffer_size status stdin with
  | none => none
  | some r =>
    match r.command_buffer with
    | none => some (r.status, none, r.stdin)
    | some command_buffer =>
      match get_command fuel command_buffer outputLocation inputLocation with
      | none => none
      | some parsed => some (r.status, some parsed, r.stdin)

/-! ## The process launcher -/

/-- The descriptor `STDIN_FILENO`. -/
def STDIN_FILENO : Nat := 0

/-- The descriptor `STDOUT_FILENO`. -/
def STDOUT_FILENO : Nat := 1

/-- What a file descriptor refers to. -/
inductive File where
  /-- The read end of the pipe created by `pipe`. -/
  | pipe_read
  /-- The write end of the pipe created by `pipe`. -/
  | pipe_write
  /-- A file opened by `open`, for writing (`O_WRONLY | O_CREAT | O_TRUNC`) or for reading
  (`O_RDONLY`). -/
  | opened (path : List Char) (writing : Bool)
  /-- Something the process had open when `execute_command` was called. -/
  | inherited (n : Nat)
  deriving DecidableEq

/-- The descriptor table of a process. -/
abbrev FdTable := Nat → Option File

/-- The table after a successful `dup2(oldfd, newfd)`. -/
def fd_dup2 (t : FdTable) (oldfd newfd : Nat) : FdTable :=
  fun fd => if fd = newfd then t oldfd else t fd

/-- The table after `close(fd)`. -/
def fd_close (t : FdTable) (closed : Nat) : FdTable :=
  fun fd => if fd = closed then none else t fd

/-- The table after a call has returned the new descriptor `fd` for `file`. -/
def fd_install (t : FdTable) (new : Nat) (file : File) : FdTable :=
  fun fd => if fd = new then some file else t fd

/-- The calls a process makes, in order. -/
inductive Action where
  | fork
  | pipe
  | wait
  | fflush
  | close (fd : Nat)
  | dup2 (oldfd newfd : Nat)
  | open_file (path : List Char) (writing : Bool)
  | perror (message : String)
  | display_help
  | execvp (file : List Char) (argv : List (List Char))
  deriving DecidableEq

/-- How a process leaves the code of the shell. -/
inductive Finish where
  /-- The call `exit(status)`. -/
  | exited (status : Nat)
  /-- The call `execvp` succeeded: the process now runs the program with these arguments. -/
  | replaced (argv : List (List Char))
  /-- The function `execute_command` returned to `main`. -/
  | returned
  deriving DecidableEq

/-- The state of one process: the calls made so far, its descriptor table, and how it left the
code of the shell, if it has. -/
structure Proc where
  /-- The calls made so far. -/
  trace : List Action
  /-- The descriptor table. -/
  fds : FdTable
  /-- How the process left the code of the shell; `none` while it is still running. -/
  finish : Option Finish

/-- The outcome of each system call of `execute_command` and its helpers in the process that
runs them. -/
structure Sys where
  /-- The value returned by the first `fork`: 0 in the child, the child's identifier in the
  parent, negative on failure. -/
  fork1 : Int
  /-- The two descriptors stored by `pipe`, read end first; `none` when `pipe` fails. -/
  pipe : Option (Nat × Nat)
  /-- The value returned by the `fork` of the pipe branch. -/
  fork2 : Int
  /-- Whether the `dup2` of the pipe branch succeeds. -/
  dup2_pipe : Bool
  /-- The descriptor returned by `open` in `redirect_stdout`; `none` when it fails. -/
  open_stdout : Option Nat
  /-- Whether the `dup2` of `redirect_stdout` succeeds. -/
  dup2_stdout : Bool
  /-- The descriptor returned by `open` in `redirect_stdin`; `none` when it fails. -/
  open_stdin : Option Nat
  /-- Whether the `dup2` of `redirect_stdin` succeeds. -/
  dup2_stdin : Bool
  /-- Whether `execvp` succeeds. -/
  execvp : Bool

/-- A process that starts with the descriptor table `fds`. -/
def Proc.start (fds : FdTable) : Proc := { trace := [], fds := fds, finish := none }

/-- The process after further calls. -/
def Proc.act (p : Proc) (calls : List Action) : Proc := { p with trace := p.trace ++ calls }

/-- The process after `exit(status)`. -/
def Proc.exit_with (p : Proc) (status : Nat) : Proc := { p with finish := some (.exited status) }

/-- The process with another descriptor table. -/
def Proc.with_fds (p : Proc) (fds : FdTable) : Proc := { p with fds := fds }

/-- Sequencing: the statements `k` run only in a process that has not left the code. -/
def Proc.next (p : Proc) (k : Proc → Proc) : Proc :=
  match p.finish with
  | some _ => p
  | none => k p

/-- The test `!strcmp(a, b)`: the two C strings are equal. -/
def strcmp_zero (a b : List Char) : Bool := cstr a == cstr b

/-- The function `redirect_stdout`. -/
def redirect_stdout (sys : Sys) (outputLocation : Mem) (p : Proc) : Proc :=
  match sys.open_stdout with
  | none =>
    (p.act [.open_file (cstr outputLocation) true, .perror "Trouble opening file"]).exit_with 1
  | some fd =>
    let p1 := (p.act [.open_file (cstr outputLocation) true]).with_fds
      (fd_install p.fds fd (.opened (cstr outputLocation) true))
    if sys.dup2_stdout = true then
      (p1.act [.dup2 fd STDOUT_FILENO, .close fd]).with_fds
        (fd_close (fd_dup2 p1.fds fd STDOUT_FILENO) fd)
    else
      ((p1.act [.dup2 fd STDOUT_FILENO, .perror "Trouble dup2-ing to stdout", .close fd]).with_fds
        (fd_close p1.fds fd)).exit_with 1

/-- The function `redirect_stdin`. -/
def redirect_stdin (sys : Sys) (inputLocation : Mem) (p : Proc) : Proc :=
  match sys.open_stdin with
  | none =>
    (p.act [.open_file (cstr inputLocation) false, .perror "Trouble opening file"]).exit_with 1
  | some fd =>
    let p1 := (p.act [.open_file (cstr inputLocation) false]).with_fds
      (fd_install p.fds fd (.opened (cstr inputLocation) false))
    if sys.dup2_stdin = true then
      (p1.act [.dup2 fd STDIN_FILENO, .close fd]).with_fds
        (fd_close (fd_dup2 p1.fds fd STDIN_FILENO) fd)
    else
      ((p1.act [.dup2 fd STDIN_FILENO, .perror "Trouble dup2-ing to stdin", .close fd]).with_fds
        (fd_close p1.fds fd)).exit_with 1

/-- The function `execute_single_command`; `command[0]` is the first string of `command`. -/
def execute_single_command (sys : Sys) (command : List (List Char)) (p : Proc) : Proc :=
  if strcmp_zero "help".toList (command.headD []) = true then
    (p.act [.display_help, .fflush]).exit_with 0
  else if strcmp_zero "exit".toList (command.headD []) = true then
    p.exit_with 0
  else if sys.execvp = true then
    { p.act [.execvp (command.headD []) command] with finish := some (.replaced command) }
  else
    (p.act [.execvp (command.headD []) command, .perror "exec failed", .fflush]).exit_with 0

/-- The pipe branch of `execute_command` after `pipe` has succeeded with the descriptors
`fd0` (read end) and `fd1` (write end). -/
def execute_piped (sys : Sys) (command0 command1 : List (List Char))
    (outputLocation inputLocation : Mem) (fd0 fd1 : Nat) (p : Proc) : Proc :=
  let p := (p.act [.pipe, .fork]).with_fds
    (fd_install (fd_install p.fds fd0 .pipe_read) fd1 .pipe_write)
  if sys.fork2 < 0 then
    (p.act [.perror "Trouble forking"]).exit_with 1
  else if sys.fork2 ≠ 0 then
    let p := (p.act [.close fd0]).with_fds (fd_close p.fds fd0)
    let p := if sys.dup2_pipe = true then
        (p.act [.dup2 fd1 STDOUT_FILENO]).with_fds (fd_dup2 p.fds fd1 STDOUT_FILENO)
      else p.act [.dup2 fd1 STDOUT_FILENO, .perror "Trouble redirecting stdout"]
    let p := (p.act [.close fd1]).with_fds (fd_close p.fds fd1)
    let p := if peek inputLocation ≠ NUL then redirect_stdin sys inputLocation p else p
    p.next (execute_single_command sys command0)
  else
    let p := (p.act [.close fd1]).with_fds (fd_close p.fds fd1)
    let p := if sys.dup2_pipe = true then
        (p.act [.dup2 fd0 STDIN_FILENO]).with_fds (fd_dup2 p.fds fd0 STDIN_FILENO)
      else p.act [.dup2 fd0 STDIN_FILENO, .perror "Trouble redirecting stdin"]
    let p := (p.act [.close fd0]).with_fds (fd_close p.fds fd0)
    let p := if peek outputLocation ≠ NUL then redirect_stdout sys outputLocation p else p
    p.next (execute_single_command sys command1)

/-- The function `execute_command`, as one process runs it: `parsed_command[0]` and
`parsed_command[1]` are given as vectors of C strings, `fds` is the descriptor table at the
call. The first action is the call of `fork`; the outcomes in `sys` decide which of the
processes this is. -/
def execute_command (sys : Sys) (command0 : List (List Char))
    (command1 : Option (List (List Char))) (outputLocation inputLocation : Mem)
    (fds : FdTable) : Proc :=
  let p := (Proc.start fds).act [.fork]
  if sys.fork1 = 0 then
    let p := p.act [.fflush]
    match command1 with
    | some second =>
      match sys.pipe with
      | none => (p.act [.pipe, .perror "Trouble creating pipe"]).exit_with 1
      | some fd => execute_piped sys command0 second outputLocation inputLocation fd.1 fd.2 p
    | none =>
      let p := if peek outputLocation ≠ NUL then redirect_stdout sys outputLocation p else p
      let p := p.next
        (fun p => if peek inputLocation ≠ NUL then redirect_stdin sys inputLocation p else p)
      p.next (execute_single_command sys command0)
  else
    let p := p.act [.fflush, .wait]
    if strcmp_zero "exit".toList (command0.headD []) = true then p.exit_with 0
    else { p.act [.fflush] with finish := some .returned }

/-! ## The stores of the parser -/

/-- The stores of the copy loop of `set_redirection`, in order: the index `stringIndex` and the
character of each `location[stringIndex] = command_buffer[i]`. -/
def copy_location_stores : List Char → Nat → List (Nat × Char)
  | [], _ => []
  | c :: cs, stringIndex =>
    if c ≠ ' ' ∧ c ≠ NUL then (stringIndex, c) :: copy_location_stores cs (stringIndex + 1)
    else []

/-- The stores of `set_redirection` into `outputLocation` and `inputLocation`, in order, during
at most `fuel` rounds of its loop: the function `set_redirection` with every store logged, the
stores of a copy loop followed by the store of the terminator at `stringIndex`. -/
def set_redirection_stores : Nat → List Char → Mem → Mem → List (Nat × Char)
  | 0, _, _, _ => []
  | fuel + 1, s, outputLocation, inputLocation =>
    if peek s ≠ NUL ∧ peek s ≠ '|' then
      let s1 := skip_spaces s
      if peek s1 = '>' then
        let s2 := skip_spaces s1.tail
        let r := copy_location s2 outputLocation 0
        copy_location_stores s2 0 ++ (r.2.2, NUL)
          :: set_redirection_stores fuel r.1 (r.2.1.set r.2.2 NUL) inputLocation
      else if peek s1 = '<' then
        let s2 := skip_spaces s1.tail
        let r := copy_location s2 inputLocation 0
        copy_location_stores s2 0 ++ (r.2.2, NUL)
          :: set_redirection_stores fuel r.1 outputLocation (r.2.1.set r.2.2 NUL)
      else set_redirection_stores fuel s1 outputLocation inputLocation
    else []

/-- The stores into the location arrays during one call of `count_args`. -/
def count_args_stores (fuel : Nat) (command_buffer : List Char)
    (outputLocation inputLocation : Mem) (index : Nat) : List (Nat × Char) :=
  match count_loop fuel (skip_spaces (command_buffer.drop index)) 0 with
  | none => []
  | some (_, s) => set_redirection_stores fuel s outputLocation inputLocation

/-- The stores into the location arrays during the parsing phase of `get_command`: those of the
first call of `count_args` and, when there is a pipe and the first call returns, those of the
second. -/
def get_command_stores (fuel : Nat) (command_buffer : List Char)
    (outputLocation inputLocation : Mem) : List (Nat × Char) :=
  count_args_stores fuel command_buffer outputLocation inputLocation 0 ++
    (if is_pipe command_buffer ≠ 0 then
      match count_args fuel command_buffer outputLocation inputLocation 0 with
      | none => []
      | some (_, out, inp) =>
        count_args_stores fuel command_buffer out inp (is_pipe command_buffer + 1)
    else [])

/-- The number of bytes `parse_args` allocates for each argument, `20 * sizeof(char)`. -/
def ARG_SIZE : Nat := 20

/-- Characters paired with the consecutive indices from `positionInArg` on. -/
def indexed_from : List Char → Nat → List (Nat × Char)
  | [], _ => []
  | c :: cs, positionInArg => (positionInArg, c) :: indexed_from cs (positionInArg + 1)

/-- The stores of `parse_args` into one block, in order: the characters copied, then the
terminator. -/
def Arg.stores (a : Arg) : List (Nat × Char) := indexed_from a.chars 0 ++ [(a.nul, NUL)]

/-- A block after stores, given its content before; a store beyond the end of the block is
dropped. -/
def apply_stores (block : List Char) (stores : List (Nat × Char)) : List Char :=
  stores.foldl (fun b st => b.set st.1 st.2) block

/-- The blocks `my_argv[0]`, `my_argv[1]`, ... after one call of `parse_args`, from the stores
into each. The call of `malloc` for argument `k` returns `malloc k`: a block with the content
given, which `malloc` does not clear, or `none` for `NULL`, on which `parse_args` prints
`Malloc failed` and calls `exit(1)`; the result is then `none`. -/
def argv_memory (malloc : Nat → Option (List Char)) : Nat → List Arg → Option (List (List Char))
  | _, [] => some []
  | k, a :: rest =>
    match malloc k with
    | none => none
    | some block =>
      (argv_memory malloc (k + 1) rest).map (fun blocks => apply_stores block a.stores :: blocks)

/-- The argument strings as `strcmp` and `execvp` read them: the C string held by each block after
`parse_args`. -/
def argv_strings (malloc : Nat → Option (List Char)) (argv : List Arg) :
    Option (List (List Char)) :=
  (argv_memory malloc 0 argv).map (fun blocks => blocks.map cstr)

/-! # Properties -/

/-! ## Basic facts about the loops -/

theorem plain_iff (c : Char) :
    plain c = true ↔ c ≠ ' ' ∧ c ≠ NUL ∧ c ≠ '>' ∧ c ≠ '<' ∧ c ≠ '|' := by
  simp [plain, is_stop, and_assoc]

theorem is_stop_space : is_stop ' ' = false := by decide

theorem peek_nil : peek [] = NUL := rfl

theorem peek_cons (c : Char) (cs : List Char) : peek (c :: cs) = c := rfl

theorem is_stop_peek_nil : is_stop (peek []) = true := by decide

theorem spaces_succ (k : Nat) : spaces (k + 1) = ' ' :: spaces k := rfl

theorem skip_spaces_spaces (k : Nat) (s : List Char) :
    skip_spaces (spaces k ++ s) = skip_spaces s := by
  induction k with
  | zero => rfl
  | succ k ih => simpa [spaces_succ, skip_spaces] using ih

theorem skip_spaces_of_peek {s : List Char} (h : peek s ≠ ' ') : skip_spaces s = s := by
  cases s with
  | nil => rfl
  | cons c cs => simp only [peek_cons] at h; simp [skip_spaces, h]

theorem peek_append_word {w : List Char} (hw : w ≠ []) (s : List Char) :
    peek (w ++ s) = peek w := by
  cases w with
  | nil => exact absurd rfl hw
  | cons c cs => rfl

theorem plain_peek_word {w : List Char} (hw : is_word w) : plain (peek w) = true := by
  obtain ⟨h1, h2⟩ := hw
  cases w with
  | nil => exact absurd rfl h1
  | cons c cs => exact h2 c (List.mem_cons_self _ _)

theorem skip_spaces_word {w : List Char} (hw : is_word w) (k : Nat) (s : List Char) :
    skip_spaces (spaces k ++ (w ++ s)) = w ++ s := by
  rw [skip_spaces_spaces]
  apply skip_spaces_of_peek
  rw [peek_append_word hw.1]
  exact ((plain_iff _).1 (plain_peek_word hw)).1

theorem copy_arg_word (w s : List Char) (hw : ∀ c ∈ w, plain c = true)
    (hs : peek s = ' ' ∨ peek s = NUL) : copy_arg (w ++ s) = (w, s) := by
  induction w with
  | nil =>
    cases s with
    | nil => rfl
    | cons c cs =>
      simp only [peek_cons] at hs
      have : ¬ (c ≠ ' ' ∧ c ≠ NUL) := by
        rintro ⟨h1, h2⟩
        rcases hs with h | h
        · exact h1 h
        · exact h2 h
      simp [copy_arg, this]
  | cons c cs ih =>
    have hc := (plain_iff c).1 (hw c (List.mem_cons_self _ _))
    have ih2 := ih (fun d hd => hw d (List.mem_cons_of_mem _ hd))
    simp [copy_arg, hc.1, hc.2.1, ih2]

theorem is_stop_of_plain {c : Char} (h : plain c = true) : is_stop c = false := by
  simp [plain] at h
  exact h.2

theorem ne_space_of_plain {c : Char} (h : plain c = true) : c ≠ ' ' :=
  ((plain_iff c).1 h).1

theorem ne_space_of_is_stop {c : Char} (h : is_stop c = true) : c ≠ ' ' := by
  rintro rfl
  simp [is_stop_space] at h

/-- The counting loop on a laid-out segment: from inside a word (the rest `u` of it), over the
remaining words and the trailing spaces, up to the character `e` that stops the loop. -/
theorem count_loop_spaced (fuel : Nat) :
    ∀ (u : List Char) (items : List (Nat × List Char)) (j : Nat) (e : List Char) (n : Nat),
      (∀ c ∈ u, plain c = true) → (∀ it ∈ items, is_word it.2) → is_stop (peek e) = true →
      (u ++ (spaced_tail items ++ (spaces j ++ e))).length < fuel →
      count_loop fuel (u ++ (spaced_tail items ++ (spaces j ++ e))) n
        = some (n + items.length, e) := by
  induction fuel with
  | zero => intro u items j e n _ _ _ h; exact absurd h (Nat.not_lt_zero _)
  | succ fuel ih =>
    intro u items j e n hu hitems he hlen
    cases u with
    | cons c u =>
      have hc := hu c (List.mem_cons_self _ _)
      have h1 : is_stop c = false := is_stop_of_plain hc
      have h2 : c ≠ ' ' := ne_space_of_plain hc
      simp only [List.cons_append, count_loop, peek_cons, h1, h2, if_true, if_false,
        List.tail_cons]
      apply ih u items j e n (fun d hd => hu d (List.mem_cons_of_mem _ hd)) hitems he
      simp only [List.cons_append, List.length_cons] at hlen
      omega
    | nil =>
      cases items with
      | nil =>
        cases j with
        | zero =>
          simp only [List.nil_append, spaced_tail, spaces, List.replicate_zero]
          simp [count_loop, he]
        | succ j =>
          have hsk : skip_spaces (' ' :: (spaces j ++ e)) = e := by
            have := skip_spaces_spaces (j + 1) e
            rw [spaces_succ] at this
            rw [List.cons_append] at this
            rw [this]
            exact skip_spaces_of_peek (ne_space_of_is_stop he)
          simp only [List.nil_append, spaced_tail, spaces_succ, List.cons_append, count_loop,
            peek_cons, is_stop_space, if_true, hsk, he]
          have := ih [] [] 0 e n (fun _ h => absurd h (List.not_mem_nil _))
            (fun _ h => absurd h (List.not_mem_nil _)) he
          simp only [List.nil_append, spaced_tail, spaces, List.replicate_zero] at this
          simp only [Bool.true_eq_false, if_false]
          rw [this]
          simp only [List.nil_append, spaced_tail, spaces_succ, List.cons_append,
            List.length_cons, List.length_append] at hlen
          omega
      | cons it r =>
        obtain ⟨k, w⟩ := it
        have hw : is_word w := hitems (k, w) (List.mem_cons_self _ _)
        have hsk : skip_spaces (' ' :: (spaces k ++ (w ++ (spaced_tail r ++ (spaces j ++ e)))))
            = w ++ (spaced_tail r ++ (spaces j ++ e)) := by
          have := skip_spaces_word hw (k + 1) (spaced_tail r ++ (spaces j ++ e))
          rwa [spaces_succ, List.cons_append] at this
        have hpk : is_stop (peek (w ++ (spaced_tail r ++ (spaces j ++ e)))) = false := by
          rw [peek_append_word hw.1]
          exact is_stop_of_plain (plain_peek_word hw)
        simp only [List.nil_append, spaced_tail, spaces_succ, List.cons_append,
          List.append_assoc, count_loop, peek_cons, is_stop_space, if_true, hsk, hpk]
        rw [ih w r j e (n + 1) hw.2 (fun it hit => hitems it (List.mem_cons_of_mem _ hit)) he]
        · simp only [List.length_cons, Option.some.injEq, Prod.mk.injEq, and_true]
          omega
        · simp only [List.nil_append, spaced_tail, spaces_succ, List.cons_append,
            List.append_assoc, List.length_cons, List.length_append] at hlen
          simp only [List.length_append]
          omega

/-- The argument blocks that `parse_args` fills for a laid-out segment. -/
theorem parse_args_spaced :
    ∀ (items : List (Nat × List Char)) (t : List Char),
      (∀ it ∈ items, is_word it.2) → (peek t = ' ' ∨ peek t = NUL) →
      parse_args items.length (spaced items ++ t)
        = items.map (fun it => { chars := it.2, nul := it.2.length + 1 }) := by
  intro items
  induction items with
  | nil => intro t _ _; rfl
  | cons it r ih =>
    intro t hitems ht
    obtain ⟨k, w⟩ := it
    have hw : is_word w := hitems (k, w) (List.mem_cons_self _ _)
    have hr : ∀ it ∈ r, is_word it.2 := fun it hit => hitems it (List.mem_cons_of_mem _ hit)
    have hsk : skip_spaces (spaces k ++ (w ++ (spaced_tail r ++ t)))
        = w ++ (spaced_tail r ++ t) := skip_spaces_word hw k _
    have hpk : peek (spaced_tail r ++ t) = ' ' ∨ peek (spaced_tail r ++ t) = NUL := by
      cases r with
      | nil => simpa [spaced_tail] using ht
      | cons it2 r2 =>
        obtain ⟨k2, w2⟩ := it2
        left
        simp [spaced_tail, spaces_succ, peek_cons]
    have hcp := copy_arg_word w (spaced_tail r ++ t) hw.2 hpk
    simp only [spaced, List.append_assoc, List.length_cons, parse_args, hsk, hcp, List.map_cons]
    congr 1
    cases r with
    | nil => rfl
    | cons it2 r2 =>
      obtain ⟨k2, w2⟩ := it2
      have := ih t hr ht
      simp only [spaced, List.append_assoc] at this
      simp only [spaced_tail, spaces_succ, List.cons_append, List.append_assoc, List.tail_cons]
      exact this

/-! ## The location arrays -/

theorem copy_location_word (w s : List Char) (hw : ∀ c ∈ w, plain c = true)
    (hs : peek s = ' ' ∨ peek s = NUL) :
    ∀ (done todo : List Char), w.length ≤ todo.length →
      copy_location (w ++ s) (done ++ todo) done.length
        = (s, done ++ (w ++ todo.drop w.length), done.length + w.length) := by
  induction w with
  | nil =>
    intro done todo _
    cases s with
    | nil => simp [copy_location]
    | cons c cs =>
      simp only [peek_cons] at hs
      have : ¬ (c ≠ ' ' ∧ c ≠ NUL) := by
        rintro ⟨h1, h2⟩
        rcases hs with h | h
        · exact h1 h
        · exact h2 h
      simp [copy_location, this]
  | cons c cs ih =>
    intro done todo hlen
    have hc := (plain_iff c).1 (hw c (List.mem_cons_self _ _))
    cases todo with
    | nil => simp at hlen
    | cons t todo =>
      have hset : (done ++ t :: todo).set done.length c = (done ++ [c]) ++ todo := by
        rw [List.set_append_right _ _ (Nat.le_refl _)]
        simp
      have := ih (fun d hd => hw d (List.mem_cons_of_mem _ hd)) (done ++ [c]) todo
        (by simpa using hlen)
      simp only [List.length_append, List.length_singleton] at this
      simp only [List.cons_append, copy_location, ne_eq, hc.1, hc.2.1, not_false_eq_true,
        and_self, if_true, hset, List.length_cons, List.drop_succ_cons, List.append_eq]
      rw [this]
      simp only [List.append_assoc, List.singleton_append, Prod.mk.injEq, true_and]
      omega

theorem copy_location_store (w s : List Char) (location : Mem) (hw : ∀ c ∈ w, plain c = true)
    (hs : peek s = ' ' ∨ peek s = NUL) (hlen : w.length < location.length) :
    copy_location (w ++ s) location 0 = (s, w ++ location.drop w.length, w.length) ∧
      (w ++ location.drop w.length).set w.length NUL = store location w := by
  constructor
  · have := copy_location_word w s hw hs [] location (Nat.le_of_lt hlen)
    simpa using this
  · rw [List.set_append_right _ _ (Nat.le_refl _)]
    simp only [Nat.sub_self, store]
    cases h : location.drop w.length with
    | nil =>
      have := List.drop_eq_nil_iff.1 h
      omega
    | cons a r =>
      have : location.drop (w.length + 1) = r := by
        rw [← List.drop_drop, h]
        rfl
      simp [this]

theorem cstr_append_nul (w t : List Char) (hw : ∀ c ∈ w, plain c = true) :
    cstr (w ++ NUL :: t) = w := by
  unfold cstr
  induction w with
  | nil => simp [List.takeWhile]
  | cons c cs ih =>
    have hc := (plain_iff c).1 (hw c (List.mem_cons_self _ _))
    have := ih (fun d hd => hw d (List.mem_cons_of_mem _ hd))
    simp only [List.cons_append, List.takeWhile_cons, bne_iff_ne, ne_eq, hc.2.1,
      not_false_eq_true, decide_True, if_true]
    exact congrArg (List.cons c) this

theorem cstr_store (location : Mem) (w : List Char) (hw : ∀ c ∈ w, plain c = true) :
    cstr (store location w) = w :=
  cstr_append_nul w _ hw

/-! ## The redirection scan -/

theorem skip_spaces_op (j : Nat) (c : Char) (s : List Char) (hc : c ≠ ' ') :
    skip_spaces (spaces j ++ c :: s) = c :: s := by
  rw [skip_spaces_spaces]
  exact skip_spaces_of_peek hc

theorem peek_spaces_cons (j : Nat) (c : Char) (s : List Char) :
    peek (spaces j ++ c :: s) = ' ' ∨ peek (spaces j ++ c :: s) = c := by
  cases j with
  | zero => right; rfl
  | succ j => left; rfl

/-- One round of `set_redirection` on `> path`. -/
theorem set_redirection_out (fuel j k : Nat) (w rest : List Char) (out inp : Mem)
    (hw : is_word w) (hrest : peek rest = ' ' ∨ peek rest = NUL) (hlen : w.length < out.length) :
    set_redirection (fuel + 1) (spaces j ++ '>' :: (spaces k ++ (w ++ rest))) out inp
      = set_redirection fuel rest (store out w) inp := by
  have hg : peek (spaces j ++ '>' :: (spaces k ++ (w ++ rest))) ≠ NUL ∧
      peek (spaces j ++ '>' :: (spaces k ++ (w ++ rest))) ≠ '|' := by
    rcases peek_spaces_cons j '>' (spaces k ++ (w ++ rest)) with h | h <;> rw [h] <;> decide
  have h1 := skip_spaces_op j '>' (spaces k ++ (w ++ rest)) (by decide)
  have h2 := skip_spaces_word hw k rest
  obtain ⟨h3, h4⟩ := copy_location_store w rest out hw.2 hrest hlen
  rw [set_redirection, if_pos hg]
  simp only [h1, peek_cons, List.tail_cons, h2, h3, h4, if_true]

/-- One round of `set_redirection` on `< path`. -/
theorem set_redirection_in (fuel j k : Nat) (w rest : List Char) (out inp : Mem)
    (hw : is_word w) (hrest : peek rest = ' ' ∨ peek rest = NUL) (hlen : w.length < inp.length) :
    set_redirection (fuel + 1) (spaces j ++ '<' :: (spaces k ++ (w ++ rest))) out inp
      = set_redirection fuel rest out (store inp w) := by
  have hg : peek (spaces j ++ '<' :: (spaces k ++ (w ++ rest))) ≠ NUL ∧
      peek (spaces j ++ '<' :: (spaces k ++ (w ++ rest))) ≠ '|' := by
    rcases peek_spaces_cons j '<' (spaces k ++ (w ++ rest)) with h | h <;> rw [h] <;> decide
  have h1 := skip_spaces_op j '<' (spaces k ++ (w ++ rest)) (by decide)
  have h2 := skip_spaces_word hw k rest
  obtain ⟨h3, h4⟩ := copy_location_store w rest inp hw.2 hrest hlen
  have hne : ¬ ('<' = '>') := by decide
  rw [set_redirection, if_pos hg]
  simp only [h1, peek_cons, List.tail_cons, h2, h3, h4, hne, if_true, if_false]

/-- The scan returns at the terminator or at a pipe character. -/
theorem set_redirection_stop (fuel : Nat) (e : List Char) (out inp : Mem)
    (he : peek e = NUL ∨ peek e = '|') :
    set_redirection (fuel + 1) e out inp = some (out, inp) := by
  have : ¬ (peek e ≠ NUL ∧ peek e ≠ '|') := by
    rintro ⟨h1, h2⟩
    rcases he with h | h
    · exact h1 h
    · exact h2 h
  simp only [set_redirection, this, if_false]

/-- The scan returns after trailing spaces. -/
theorem set_redirection_end (fuel j : Nat) (e : List Char) (out inp : Mem)
    (he : peek e = NUL ∨ peek e = '|') :
    set_redirection (fuel + 2) (spaces j ++ e) out inp = some (out, inp) := by
  cases j with
  | zero => exact set_redirection_stop (fuel + 1) e out inp he
  | succ j =>
    have hne : peek e ≠ ' ' := by
      rcases he with h | h <;> rw [h] <;> decide
    have hsk : skip_spaces (' ' :: (spaces j ++ e)) = e := by
      have := skip_spaces_spaces (j + 1) e
      rw [spaces_succ, List.cons_append] at this
      rw [this]
      exact skip_spaces_of_peek hne
    have h1 : peek e ≠ '>' := by
      rcases he with h | h <;> rw [h] <;> decide
    have h2 : peek e ≠ '<' := by
      rcases he with h | h <;> rw [h] <;> decide
    have hg : (' ' : Char) ≠ NUL ∧ (' ' : Char) ≠ '|' := by decide
    rw [spaces_succ, List.cons_append, set_redirection]
    simp only [peek_cons, hg, hsk, h1, h2, if_false]
    simp only [ne_eq, not_false_eq_true, and_self, if_true]
    exact set_redirection_stop fuel e out inp he

/-- At a plain character the loop of `set_redirection` changes nothing, so no amount of fuel
lets it return. -/
theorem set_redirection_stuck (fuel : Nat) (s : List Char) (out inp : Mem)
    (hs : plain (peek s) = true) : set_redirection fuel s out inp = none := by
  induction fuel with
  | zero => rfl
  | succ fuel ih =>
    have hc := (plain_iff _).1 hs
    have hsk : skip_spaces s = s := skip_spaces_of_peek hc.1
    simp only [set_redirection, hsk, hc.2.1, hc.2.2.1, hc.2.2.2.1, hc.2.2.2.2, ne_eq,
      not_false_eq_true, and_self, if_true, if_false]
    exact ih

theorem set_redirection_mono (fuel : Nat) :
    ∀ (s : List Char) (out inp : Mem) (r : Mem × Mem),
      set_redirection fuel s out inp = some r → set_redirection (fuel + 1) s out inp = some r := by
  induction fuel with
  | zero => intro s out inp r h; simp [set_redirection] at h
  | succ fuel ih =>
    intro s out inp r h
    rw [set_redirection] at h ⊢
    by_cases hg : peek s ≠ NUL ∧ peek s ≠ '|'
    · rw [if_pos hg] at h ⊢
      dsimp only at h ⊢
      by_cases h1 : peek (skip_spaces s) = '>'
      · rw [if_pos h1] at h ⊢
        exact ih _ _ _ _ h
      · rw [if_neg h1] at h ⊢
        by_cases h2 : peek (skip_spaces s) = '<'
        · rw [if_pos h2] at h ⊢
          exact ih _ _ _ _ h
        · rw [if_neg h2] at h ⊢
          exact ih _ _ _ _ h
    · rw [if_neg hg] at h ⊢
      exact h

theorem count_loop_mono (fuel : Nat) :
    ∀ (s : List Char) (n : Nat) (r : Nat × List Char),
      count_loop fuel s n = some r → count_loop (fuel + 1) s n = some r := by
  induction fuel with
  | zero => intro s n r h; simp [count_loop] at h
  | succ fuel ih =>
    intro s n r h
    rw [count_loop] at h ⊢
    by_cases hg : is_stop (peek s) = false
    · rw [if_pos hg] at h ⊢
      by_cases h1 : peek s = ' '
      · rw [if_pos h1] at h ⊢
        dsimp only at h ⊢
        by_cases h2 : is_stop (peek (skip_spaces s)) = false
        · rw [if_pos h2] at h ⊢
          exact ih _ _ _ h
        · rw [if_neg h2] at h ⊢
          exact ih _ _ _ h
      · rw [if_neg h1] at h ⊢
        exact ih _ _ _ h
    · rw [if_neg hg] at h ⊢
      exact h

/-! ## `count_args` on a laid-out segment -/

theorem length_drop_le_length (buf : List Char) (index : Nat) :
    (buf.drop index).length ≤ buf.length := by
  simp

/-- On a segment with at least one word `count_args` returns the number of words, provided the
redirection scan returns. -/
theorem count_args_spaced (fuel : Nat) (buf : List Char) (index : Nat)
    (items : List (Nat × List Char)) (j : Nat) (e : List Char) (out inp : Mem)
    (hbuf : buf.drop index = spaced items ++ (spaces j ++ e)) (hne : items ≠ [])
    (hitems : ∀ it ∈ items, is_word it.2) (he : is_stop (peek e) = true)
    (hfuel : buf.length < fuel) :
    count_args fuel buf out inp index
      = (set_redirection fuel e out inp).map (fun r => (items.length, r.1, r.2)) := by
  cases items with
  | nil => exact absurd rfl hne
  | cons it r =>
    obtain ⟨k, w⟩ := it
    have hw : is_word w := hitems (k, w) (List.mem_cons_self _ _)
    have hr : ∀ it ∈ r, is_word it.2 := fun it hit => hitems it (List.mem_cons_of_mem _ hit)
    have hlen := length_drop_le_length buf index
    rw [hbuf] at hlen
    simp only [spaced, List.append_assoc, List.length_append] at hlen
    have hsk := skip_spaces_word hw k (spaced_tail r ++ (spaces j ++ e))
    have hcl := count_loop_spaced fuel w r j e 0 hw.2 hr he
      (by simp only [List.length_append]; omega)
    unfold count_args
    rw [hbuf]
    simp only [spaced, List.append_assoc, hsk, hcl]
    cases set_redirection fuel e out inp with
    | none => rfl
    | some p => simp [Nat.add_comm]

/-- On a segment without a word `count_args` still returns 1. -/
theorem count_args_blank (fuel : Nat) (buf : List Char) (index : Nat) (j : Nat) (e : List Char)
    (out inp : Mem) (hbuf : buf.drop index = spaces j ++ e) (he : is_stop (peek e) = true) :
    count_args (fuel + 1) buf out inp index
      = (set_redirection (fuel + 1) e out inp).map (fun r => (1, r.1, r.2)) := by
  have hsk : skip_spaces (spaces j ++ e) = e := by
    rw [skip_spaces_spaces]
    exact skip_spaces_of_peek (ne_space_of_is_stop he)
  unfold count_args
  rw [hbuf, hsk]
  simp only [count_loop, he, Bool.true_eq_false, if_false]
  cases set_redirection (fuel + 1) e out inp with
  | none => rfl
  | some p => rfl

/-! ## Maximal runs of non-space characters -/

theorem words_nil : words [] = [] := by
  simp [words, List.splitOn, List.splitOnP_nil]

theorem words_space (s : List Char) : words (' ' :: s) = words s := by
  simp [words, List.splitOn, List.splitOnP_cons]

theorem words_spaces (k : Nat) (s : List Char) : words (spaces k ++ s) = words s := by
  induction k with
  | zero => rfl
  | succ k ih => rw [spaces_succ, List.cons_append, words_space, ih]

theorem words_word_space {w : List Char} (hw : is_word w) (s : List Char) :
    words (w ++ ' ' :: s) = w :: words s := by
  have h : ∀ x ∈ w, ¬ ((fun c : Char => c == ' ') x = true) := by
    intro x hx
    simpa using ne_space_of_plain (hw.2 x hx)
  have := List.splitOnP_first (fun c : Char => c == ' ') w h ' ' (by simp) s
  simp only [words, List.splitOn, this, List.filter_cons]
  simp [hw.1]

theorem words_word {w : List Char} (hw : is_word w) : words w = [w] := by
  have h : ∀ x ∈ w, ¬ ((fun c : Char => c == ' ') x = true) := by
    intro x hx
    simpa using ne_space_of_plain (hw.2 x hx)
  have := List.splitOnP_eq_single (fun c : Char => c == ' ') w h
  simp only [words, List.splitOn, this, List.filter_cons]
  simp [hw.1]

theorem words_spaced_tail (items : List (Nat × List Char)) (j : Nat)
    (hitems : ∀ it ∈ items, is_word it.2) :
    words (spaced_tail items ++ spaces j) = items.map Prod.snd := by
  induction items with
  | nil => 
    have := words_spaces j []
    simpa [spaced_tail, words_nil] using this
  | cons it r ih =>
    obtain ⟨k, w⟩ := it
    have hw : is_word w := hitems (k, w) (List.mem_cons_self _ _)
    have hr : ∀ it ∈ r, is_word it.2 := fun it hit => hitems it (List.mem_cons_of_mem _ hit)
    simp only [spaced_tail, List.append_assoc, words_spaces, List.map_cons]
    cases r with
    | nil =>
      cases j with
      | zero => simpa [spaced_tail, spaces] using words_word hw
      | succ j =>
        have := words_word_space hw (spaces j)
        have h2 := words_spaces j []
        simp only [List.append_nil, words_nil] at h2
        simp only [spaced_tail, List.nil_append, spaces_succ, this, h2, List.map_nil]
    | cons it2 r2 =>
      obtain ⟨k2, w2⟩ := it2
      have := ih hr
      simp only [spaced_tail, spaces_succ, List.cons_append, List.append_assoc, words_space]
        at this ⊢
      rw [words_word_space hw, this]

theorem words_spaced (items : List (Nat × List Char)) (j : Nat)
    (hitems : ∀ it ∈ items, is_word it.2) :
    words (spaced items ++ spaces j) = items.map Prod.snd := by
  cases items with
  | nil =>
    have := words_spaces j []
    simpa [spaced, words_nil] using this
  | cons it r =>
    obtain ⟨k, w⟩ := it
    have := words_spaced_tail ((k, w) :: r) j hitems
    simp only [spaced_tail, spaces_succ, List.cons_append, List.append_assoc, words_space]
      at this
    simpa only [spaced, List.append_assoc] using this

/-- Every text without an operator or terminator is a sequence of words separated by runs of
spaces, with leading and trailing spaces. -/
theorem exists_spaced (text : List Char) (h : ∀ c ∈ text, is_stop c = false) :
    ∃ (items : List (Nat × List Char)) (j : Nat),
      text = spaced items ++ spaces j ∧ ∀ it ∈ items, is_word it.2 := by
  induction text with
  | nil => exact ⟨[], 0, rfl, fun _ h => absurd h (List.not_mem_nil _)⟩
  | cons c cs ih =>
    obtain ⟨items, j, hcs, hitems⟩ := ih (fun d hd => h d (List.mem_cons_of_mem _ hd))
    have hc : is_stop c = false := h c (List.mem_cons_self _ _)
    by_cases hsp : c = ' '
    · subst hsp
      cases items with
      | nil =>
        refine ⟨[], j + 1, ?_, hitems⟩
        rw [hcs]
        rfl
      | cons it r =>
        obtain ⟨k, w⟩ := it
        refine ⟨(k + 1, w) :: r, j, ?_, ?_⟩
        · rw [hcs]
          simp [spaced, spaces_succ]
        · intro it hit
          rcases List.mem_cons.1 hit with rfl | hit
          · exact hitems (k, w) (List.mem_cons_self _ _)
          · exact hitems it (List.mem_cons_of_mem _ hit)
    · have hpl : plain c = true := by simp [plain, hsp, hc]
      cases items with
      | nil =>
        refine ⟨[(0, [c])], j, ?_, ?_⟩
        · rw [hcs]
          simp [spaced, spaced_tail, spaces]
        · intro it hit
          rw [List.mem_singleton] at hit
          subst hit
          exact ⟨by simp, by simpa using hpl⟩
      | cons it r =>
        obtain ⟨k, w⟩ := it
        have hw : is_word w := hitems (k, w) (List.mem_cons_self _ _)
        have hr : ∀ it ∈ r, is_word it.2 :=
          fun it hit => hitems it (List.mem_cons_of_mem _ hit)
        cases k with
        | zero =>
          refine ⟨(0, c :: w) :: r, j, ?_, ?_⟩
          · rw [hcs]
            simp [spaced, spaces]
          · intro it hit
            rcases List.mem_cons.1 hit with rfl | hit
            · refine ⟨by simp, ?_⟩
              intro d hd
              rcases List.mem_cons.1 hd with rfl | hd
              · exact hpl
              · exact hw.2 d hd
            · exact hr it hit
        | succ k =>
          refine ⟨(0, [c]) :: (k, w) :: r, j, ?_, ?_⟩
          · rw [hcs]
            simp [spaced, spaced_tail, spaces]
          · intro it hit
            rcases List.mem_cons.1 hit with rfl | hit
            · exact ⟨by simp, by simpa using hpl⟩
            · rcases List.mem_cons.1 hit with rfl | hit
              · exact hw
              · exact hr it hit

theorem is_stop_peek_dropWhile (s : List Char) :
    is_stop (peek (s.dropWhile (fun c => !is_stop c))) = true := by
  induction s with
  | nil => decide
  | cons c cs ih =>
    rw [List.dropWhile_cons]
    by_cases h : is_stop c = true
    · simp [h, peek_cons]
    · simp only [Bool.not_eq_true] at h
      simpa [h] using ih

theorem not_is_stop_of_mem_takeWhile (s : List Char) :
    ∀ c ∈ s.takeWhile (fun c => !is_stop c), is_stop c = false := by
  intro c hc
  have := List.mem_takeWhile_imp hc
  simpa using this

/-- A non-empty sequence of words ends with a plain character. -/
theorem spaced_tail_getLast (items : List (Nat × List Char)) (hne : items ≠ [])
    (hitems : ∀ it ∈ items, is_word it.2) :
    ∃ c, (spaced_tail items).getLast? = some c ∧ plain c = true := by
  induction items with
  | nil => exact absurd rfl hne
  | cons it r ih =>
    obtain ⟨k, w⟩ := it
    have hw : is_word w := hitems (k, w) (List.mem_cons_self _ _)
    cases r with
    | nil =>
      obtain ⟨c, hc⟩ : ∃ c, w.getLast? = some c := by
        cases h : w.getLast? with
        | none => exact absurd (List.getLast?_eq_none_iff.1 h) hw.1
        | some c => exact ⟨c, rfl⟩
      refine ⟨c, ?_, hw.2 c (List.mem_of_getLast?_eq_some hc)⟩
      simp [spaced_tail, List.getLast?_append, hc]
    | cons it2 r2 =>
      obtain ⟨c, hc, hp⟩ := ih (List.cons_ne_nil _ _)
        (fun it hit => hitems it (List.mem_cons_of_mem _ hit))
      refine ⟨c, ?_, hp⟩
      rw [spaced_tail, List.getLast?_append, hc]
      rfl

theorem spaced_getLast (items : List (Nat × List Char)) (hne : items ≠ [])
    (hitems : ∀ it ∈ items, is_word it.2) :
    ∃ c, (spaced items).getLast? = some c ∧ plain c = true := by
  cases items with
  | nil => exact absurd rfl hne
  | cons it r =>
    obtain ⟨k, w⟩ := it
    obtain ⟨c, hc, hp⟩ := spaced_tail_getLast ((k, w) :: r) hne hitems
    refine ⟨c, ?_, hp⟩
    have hw : is_word w := hitems (k, w) (List.mem_cons_self _ _)
    have hne2 : w ++ spaced_tail r ≠ [] := by
      intro h
      exact hw.1 (List.append_eq_nil.1 h).1
    simp only [spaced_tail, List.append_assoc] at hc
    rw [List.getLast?_append_of_ne_nil _ hne2] at hc
    simp only [spaced, List.append_assoc]
    rw [List.getLast?_append_of_ne_nil _ hne2]
    exact hc

theorem cstr_append_terminator (w t : List Char) (hw : NUL ∉ w) : cstr (w ++ NUL :: t) = w := by
  unfold cstr
  induction w with
  | nil => simp [List.takeWhile]
  | cons c cs ih =>
    have hc : c ≠ NUL := fun h => hw (h ▸ List.mem_cons_self _ _)
    have := ih (fun h => hw (List.mem_cons_of_mem _ h))
    simp only [List.cons_append, List.takeWhile_cons, bne_iff_ne, ne_eq, hc,
      not_false_eq_true, decide_True, if_true]
    exact congrArg (List.cons c) this

/-! ## The blocks of the arguments -/

theorem indexed_from_bound (w : List Char) :
    ∀ (k : Nat), ∀ st ∈ indexed_from w k, st.1 < k + w.length := by
  induction w with
  | nil => intro k st h; simp [indexed_from] at h
  | cons c cs ih =>
    intro k st h
    simp only [indexed_from, List.mem_cons] at h
    rcases h with rfl | h
    · simp
    · have := ih (k + 1) st h
      simp only [List.length_cons]
      omega

theorem apply_stores_append (block : List Char) (s1 s2 : List (Nat × Char)) :
    apply_stores block (s1 ++ s2) = apply_stores (apply_stores block s1) s2 := by
  simp only [apply_stores, List.foldl_append]

theorem apply_stores_indexed (w : List Char) :
    ∀ (done todo : List Char), w.length ≤ todo.length →
      apply_stores (done ++ todo) (indexed_from w done.length)
        = done ++ (w ++ todo.drop w.length) := by
  induction w with
  | nil => intro done todo _; simp [apply_stores, indexed_from]
  | cons c cs ih =>
    intro done todo hlen
    cases todo with
    | nil => simp at hlen
    | cons t todo =>
      have hset : (done ++ t :: todo).set done.length c = (done ++ [c]) ++ todo := by
        rw [List.set_append_right _ _ (Nat.le_refl _)]
        simp
      have := ih (done ++ [c]) todo (by simpa using hlen)
      simp only [List.length_append, List.length_singleton] at this
      simp only [indexed_from, apply_stores, List.foldl_cons, hset] at this ⊢
      rw [this]
      simp

/-- The block of a word after the stores of `parse_args`, when the word and the terminator fit
the block and the byte that the code leaves unwritten, at the index of the end of the word, was
the terminator before: the C string in the block is the word. -/
theorem cstr_block_word (w block : List Char) (hw : NUL ∉ w)
    (hlen : w.length + 2 ≤ block.length) (hz : block.getD w.length NUL = NUL) :
    cstr (apply_stores block ({ chars := w, nul := w.length + 1 } : Arg).stores) = w := by
  have h1 := apply_stores_indexed w [] block (by omega)
  simp only [List.length_nil, List.nil_append] at h1
  have hd : block.drop w.length = NUL :: block.drop (w.length + 1) := by
    have hlt : w.length < block.length := by omega
    rw [List.drop_eq_getElem_cons hlt]
    congr 1
    rw [List.getD_eq_getElem?_getD, List.getElem?_eq_getElem hlt] at hz
    exact hz
  rw [Arg.stores, apply_stores_append, h1, hd]
  simp only [apply_stores, List.foldl_cons, List.foldl_nil]
  rw [List.set_append_right _ _ (by omega)]
  have : w.length + 1 - w.length = 1 := by omega
  rw [this, List.set_cons_succ]
  exact cstr_append_terminator w _ hw

/-- The argument strings of the blocks of words of at most 18 characters, when every call of
`malloc` succeeds with a block of `ARG_SIZE` bytes whose byte at the index of the end of the word
is the terminator. -/
theorem argv_memory_word_args (malloc : Nat → Option (List Char)) :
    ∀ (ws : List (List Char)) (k : Nat), (∀ w ∈ ws, NUL ∉ w ∧ w.length ≤ 18) →
      (∀ i, i < ws.length → ∃ block, malloc (k + i) = some block ∧ block.length = ARG_SIZE ∧
        block.getD (ws.getD i []).length NUL = NUL) →
      (argv_memory malloc k (word_args ws)).map (fun blocks => blocks.map cstr) = some ws := by
  intro ws
  induction ws with
  | nil => intro k _ _; rfl
  | cons w r ih =>
    intro k hws hm
    obtain ⟨block, hb, hl, hz⟩ := hm 0 (by simp)
    have hi := ih (k + 1) (fun v hv => hws v (List.mem_cons_of_mem _ hv)) (by
      intro i hi
      have := hm (i + 1) (by simpa using hi)
      simpa [Nat.add_assoc, Nat.add_comm 1 i] using this)
    have hw := hws w (List.mem_cons_self _ _)
    have hc := cstr_block_word w block hw.1 (by rw [hl, ARG_SIZE]; omega)
      (by simpa using hz)
    simp only [Nat.add_zero] at hb
    cases hr : argv_memory malloc (k + 1) (word_args r) with
    | none => rw [hr] at hi; simp at hi
    | some blocks =>
      rw [hr] at hi
      simp only [Option.map_some', Option.some.injEq] at hi
      simp only [word_args, List.map_cons, argv_memory, hb]
      simp only [word_args] at hr
      rw [hr]
      simp only [Option.map_some', List.map_cons, hc, hi]

theorem argv_strings_word_args (malloc : Nat → Option (List Char)) (ws : List (List Char))
    (hws : ∀ w ∈ ws, NUL ∉ w ∧ w.length ≤ 18)
    (hm : ∀ i, i < ws.length → ∃ block, malloc i = some block ∧ block.length = ARG_SIZE ∧
      block.getD (ws.getD i []).length NUL = NUL) :
    argv_strings malloc (word_args ws) = some ws := by
  have := argv_memory_word_args malloc ws 0 hws (by simpa using hm)
  exact this

theorem word_args_stores_bound (ws : List (List Char)) (hws : ∀ w ∈ ws, w.length ≤ 18) :
    ∀ a ∈ word_args ws, ∀ st ∈ a.stores, st.1 < ARG_SIZE := by
  intro a ha st hst
  obtain ⟨w, hw, rfl⟩ := List.mem_map.1 ha
  have := hws w hw
  simp only [Arg.stores, List.mem_append, List.mem_singleton] at hst
  rcases hst with hst | rfl
  · have := indexed_from_bound w 0 st hst
    simp only [ARG_SIZE]
    omega
  · simp only [ARG_SIZE]
    omega

theorem word_args_map_snd (items : List (Nat × List Char)) :
    items.map (fun it => ({ chars := it.2, nul := it.2.length + 1 } : Arg))
      = word_args (items.map Prod.snd) := by
  simp [word_args, List.map_map, Function.comp_def]

/-! ## Tokens of a segment -/

theorem tokens_map_items (items : List (Nat × List Char)) :
    tokens (items.map (fun it => ({ chars := it.2, nul := it.2.length + 1 } : Arg)))
      = items.map Prod.snd := by
  simp [tokens, List.map_map, Function.comp_def]

theorem plain_of_mem_words_spaced (items : List (Nat × List Char))
    (hitems : ∀ it ∈ items, is_word it.2) :
    ∀ t ∈ items.map Prod.snd, ∀ c ∈ t, plain c = true := by
  intro t ht c hc
  obtain ⟨it, hit, rfl⟩ := List.mem_map.1 ht
  exact (hitems it hit).2 c hc

/-- C1, as amended.  For every buffer and start offset whose segment (the text from the offset up
to the first of `>`, `<`, `|` or the end of the string) holds at least one word and no word of
more than 18 characters, whose operator, if any, is not glued to the last word, and on which the
redirection scan returns, and when every call of `malloc` in `parse_args` returns a block of 20
bytes whose byte at the index of the end of the word, which the code leaves unwritten, is the
terminator: `count_args` returns the number of maximal runs of non-space characters of the
segment; the characters that `parse_args` copies for that count are exactly these runs, in
order; the argument strings that the blocks hold afterwards are exactly these runs, in order;
every store is inside its block; and no token contains `>`, `<`, `|` or a space. -/
theorem C1_tokens_are_maximal_runs (fuel : Nat) (buf : List Char) (index : Nat) (out inp : Mem)
    (malloc : Nat → Option (List Char))
    (hwords : words (segment_text buf index) ≠ [])
    (hshort : ∀ w ∈ words (segment_text buf index), w.length ≤ 18)
    (hglue : (segment_text buf index).getLast? = some ' ' ∨ peek (segment_rest buf index) = NUL)
    (hfuel : buf.length < fuel)
    (hscan : (set_redirection fuel (segment_rest buf index) out inp).isSome = true)
    (hmalloc : ∀ k, k < (words (segment_text buf index)).length →
      ∃ block, malloc k = some block ∧ block.length = ARG_SIZE ∧
        block.getD ((words (segment_text buf index)).getD k []).length NUL = NUL) :
    ∃ out2 inp2,
      count_args fuel buf out inp index
        = some ((words (segment_text buf index)).length, out2, inp2) ∧
      tokens (parse_args (words (segment_text buf index)).length (buf.drop index))
        = words (segment_text buf index) ∧
      argv_strings malloc (parse_args (words (segment_text buf index)).length (buf.drop index))
        = some (words (segment_text buf index)) ∧
      (∀ a ∈ parse_args (words (segment_text buf index)).length (buf.drop index),
        ∀ st ∈ a.stores, st.1 < ARG_SIZE) ∧
      ∀ t ∈ tokens (parse_args (words (segment_text buf index)).length (buf.drop index)),
        ∀ c ∈ t, c ≠ '>' ∧ c ≠ '<' ∧ c ≠ '|' ∧ c ≠ ' ' := by
  obtain ⟨items, j, hseg, hitems⟩ :=
    exists_spaced (segment_text buf index) (not_is_stop_of_mem_takeWhile (buf.drop index))
  have hw : words (segment_text buf index) = items.map Prod.snd := by
    rw [hseg]
    exact words_spaced items j hitems
  have hne : items ≠ [] := by
    rintro rfl
    exact hwords (by rw [hw]; rfl)
  have he : is_stop (peek (segment_rest buf index)) = true := is_stop_peek_dropWhile _
  have hbuf : buf.drop index = spaced items ++ (spaces j ++ segment_rest buf index) := by
    rw [← List.append_assoc, ← hseg]
    exact (List.takeWhile_append_dropWhile _ _).symm
  have hcount := count_args_spaced fuel buf index items j (segment_rest buf index) out inp hbuf
    hne hitems he hfuel
  have hbound : peek (spaces j ++ segment_rest buf index) = ' ' ∨
      peek (spaces j ++ segment_rest buf index) = NUL := by
    cases j with
    | succ j => left; rfl
    | zero =>
      right
      rcases hglue with h | h
      · obtain ⟨c, hc, hp⟩ := spaced_getLast items hne hitems
        rw [hseg] at h
        simp only [spaces, List.replicate_zero, List.append_nil] at h
        rw [hc] at h
        exact absurd (Option.some.inj h) (ne_space_of_plain hp)
      · simpa [spaces] using h
  have hparse := parse_args_spaced items (spaces j ++ segment_rest buf index) hitems hbound
  have htok : tokens (parse_args (words (segment_text buf index)).length (buf.drop index))
      = words (segment_text buf index) := by
    rw [hw, List.length_map, hbuf, hparse, tokens_map_items]
  have hargs : parse_args (words (segment_text buf index)).length (buf.drop index)
      = word_args (words (segment_text buf index)) := by
    rw [hw, List.length_map, hbuf, hparse, word_args_map_snd]
  have hnul : ∀ w ∈ words (segment_text buf index), NUL ∉ w ∧ w.length ≤ 18 := by
    intro w hmem
    refine ⟨?_, hshort w hmem⟩
    intro hn
    rw [hw] at hmem
    exact ((plain_iff NUL).1 (plain_of_mem_words_spaced items hitems w hmem NUL hn)).2.1 rfl
  cases hsr : set_redirection fuel (segment_rest buf index) out inp with
  | none => rw [hsr] at hscan; exact absurd hscan (by simp)
  | some p =>
    refine ⟨p.1, p.2, ?_, htok, ?_, ?_, ?_⟩
    · rw [hcount, hsr, hw, List.length_map]
      rfl
    · rw [hargs]
      exact argv_strings_word_args malloc _ hnul hmalloc
    · rw [hargs]
      exact word_args_stores_bound _ hshort
    · rw [htok, hw]
      intro t ht c hc
      have := (plain_iff c).1 (plain_of_mem_words_spaced items hitems t ht c hc)
      exact ⟨this.2.2.1, this.2.2.2.1, this.2.2.2.2, this.1⟩

/-- C1, witness: the segment of `ls -l > out` at offset 0, with blocks that hold `xx`, the
terminator and then `x` up to the end: the argument strings are `ls` and `-l`. -/
theorem C1_tokens_are_maximal_runs_witness :
    tokens (parse_args (words (segment_text "ls -l > out".toList 0)).length
        ("ls -l > out".toList.drop 0)) = ["ls".toList, "-l".toList] ∧
    argv_strings (fun _ => some ('x' :: 'x' :: NUL :: List.replicate 17 'x'))
        (parse_args (words (segment_text "ls -l > out".toList 0)).length
          ("ls -l > out".toList.drop 0)) = some ["ls".toList, "-l".toList] :=
  have h := (C1_tokens_are_maximal_runs 12 "ls -l > out".toList 0
    (List.replicate LOCATION_SIZE NUL) (List.replicate LOCATION_SIZE NUL)
    (fun _ => some ('x' :: 'x' :: NUL :: List.replicate 17 'x'))
    (by decide) (by decide) (by decide) (by decide) (by decide)
    (fun k hk => by
      have h2 : k < 2 := Nat.lt_of_lt_of_eq hk (by decide)
      interval_cases k
      · exact ⟨_, rfl, rfl, rfl⟩
      · exact ⟨_, rfl, rfl, rfl⟩)).choose_spec.choose_spec
  ⟨h.2.1.trans (by decide), h.2.2.1.trans (by decide)⟩

/-- C1, counterexample to the claim as stated: for the empty line `count_args` returns 1 and
`parse_args` fills one block, with no character copied, which then holds the empty string also
when `malloc` returned it full of terminators, although the segment has no run of non-space
characters. -/
theorem C1_counterexample :
    ∃ n out inp, count_args 1 [] [] [] 0 = some (n, out, inp) ∧
      tokens (parse_args n (([] : List Char).drop 0)) ≠ words (segment_text [] 0) ∧
      argv_strings (fun _ => some (List.replicate ARG_SIZE NUL))
          (parse_args n (([] : List Char).drop 0)) = some [[]] ∧
      words (segment_text [] 0) = [] :=
  ⟨1, [], [], by decide⟩

/-! ## The pipe detector -/

theorem is_pipe_loop_eq (buf : List Char) :
    ∀ i, is_pipe_loop buf i = if '|' ∈ cstr buf then i + (cstr buf).indexOf '|' else 0 := by
  induction buf with
  | nil => intro i; simp [is_pipe_loop, cstr]
  | cons c cs ih =>
    intro i
    by_cases h0 : c = NUL
    · simp [is_pipe_loop, cstr, h0]
    · by_cases h1 : c = '|'
      · subst h1
        simp [is_pipe_loop, cstr, List.takeWhile_cons, h0]
      · have hc : cstr (c :: cs) = c :: cstr cs := by
          simp [cstr, List.takeWhile_cons, h0]
        have hmem : ('|' ∈ c :: cstr cs) ↔ '|' ∈ cstr cs := by
          simp [List.mem_cons, Ne.symm h1]
        rw [hc, is_pipe_loop, if_neg h0, if_neg h1, ih (i + 1), List.indexOf_cons_ne _ h1]
        by_cases hm : '|' ∈ cstr cs
        · rw [if_pos hm, if_pos (hmem.2 hm)]
          omega
        · rw [if_neg hm, if_neg (fun h => hm (hmem.1 h))]

theorem is_pipe_loop_none (s : List Char) (h : ∀ c ∈ s, c ≠ '|') :
    ∀ i, is_pipe_loop s i = 0 := by
  induction s with
  | nil => intro i; rfl
  | cons c cs ih =>
    intro i
    have h1 : c ≠ '|' := h c (List.mem_cons_self _ _)
    rw [is_pipe_loop, if_neg h1]
    by_cases h0 : c = NUL
    · rw [if_pos h0]
    · rw [if_neg h0]
      exact ih (fun d hd => h d (List.mem_cons_of_mem _ hd)) (i + 1)

theorem is_pipe_loop_at (pre post : List Char) (h : ∀ c ∈ pre, c ≠ '|' ∧ c ≠ NUL) :
    ∀ i, is_pipe_loop (pre ++ '|' :: post) i = i + pre.length := by
  induction pre with
  | nil => intro i; simp [is_pipe_loop, show ¬ ('|' = NUL) by decide]
  | cons c cs ih =>
    intro i
    have hc := h c (List.mem_cons_self _ _)
    rw [List.cons_append, is_pipe_loop, if_neg hc.2, if_neg hc.1,
      ih (fun d hd => h d (List.mem_cons_of_mem _ hd)) (i + 1), List.length_cons]
    omega

/-- C4.  `is_pipe` returns the index of the first `|` of the C string held by the buffer, and 0
when there is none; in particular it returns 0 for a line that starts with `|`, as it does for a
line without a pipe, and `get_command` parses such a line as a single segment whose second slot is
`NULL`. -/
theorem C4_is_pipe_first_index (buf rest : List Char) (fuel : Nat) (out inp : Mem) :
    is_pipe buf = (if '|' ∈ cstr buf then (cstr buf).indexOf '|' else 0) ∧
    is_pipe ('|' :: rest) = 0 ∧
    get_command (fuel + 1) ('|' :: rest) out inp
      = some { first := parse_args 1 ('|' :: rest), second := none,
               outputLocation := out, inputLocation := inp } := by
  have h1 : is_pipe buf = (if '|' ∈ cstr buf then (cstr buf).indexOf '|' else 0) := by
    have := is_pipe_loop_eq buf 0
    simpa [is_pipe] using this
  have h2 : is_pipe ('|' :: rest) = 0 := by
    simp [is_pipe, is_pipe_loop, show ¬ ('|' = NUL) by decide]
  refine ⟨h1, h2, ?_⟩
  have hc : count_args (fuel + 1) ('|' :: rest) out inp 0 = some (1, out, inp) := by
    have := count_args_blank fuel ('|' :: rest) 0 0 ('|' :: rest) out inp rfl rfl
    rw [this, set_redirection_stop fuel ('|' :: rest) out inp (Or.inr rfl)]
    rfl
  simp only [get_command, hc, h2, List.drop_zero, ne_eq, not_true_eq_false, if_false]

/-! ## Failing inputs -/

/-- C2, the code at the failing input `a|b`: the first `|` is at index 1, the substring before it
is `a`, which on its own is parsed to the token `a`, but segment 0 of the whole line is the token
`a|b`, and it changes with the character that follows the pipe. -/
theorem C2_pipe_glued_to_word (out inp : Mem) :
    is_pipe "a|b".toList = 1 ∧
    (get_command 4 "a|b".toList out inp).map (fun r => tokens r.first) = some ["a|b".toList] ∧
    (get_command 4 ("a|b".toList.take 1) out inp).map (fun r => tokens r.first)
      = some ["a".toList] ∧
    (get_command 4 "a|c".toList out inp).map (fun r => tokens r.first) = some ["a|c".toList] :=
  ⟨rfl, rfl, rfl, rfl⟩

theorem count_loop_mono_add (k fuel : Nat) (s : List Char) (n : Nat) (r : Nat × List Char)
    (h : count_loop fuel s n = some r) : count_loop (fuel + k) s n = some r := by
  induction k with
  | zero => exact h
  | succ k ih => exact count_loop_mono (fuel + k) s n r ih

/-- The result of the counting loop does not depend on the fuel. -/
theorem count_loop_det (f1 f2 : Nat) (s : List Char) (n : Nat) (r1 r2 : Nat × List Char)
    (h1 : count_loop f1 s n = some r1) (h2 : count_loop f2 s n = some r2) : r1 = r2 := by
  have a := count_loop_mono_add f2 f1 s n r1 h1
  have b := count_loop_mono_add f1 f2 s n r2 h2
  rw [Nat.add_comm] at b
  rw [a] at b
  exact Option.some.inj b

theorem copy_location_cursor (w s : List Char) (hw : ∀ c ∈ w, plain c = true)
    (hs : peek s = ' ' ∨ peek s = NUL) :
    ∀ (location : Mem) (k : Nat), (copy_location (w ++ s) location k).1 = s := by
  induction w with
  | nil =>
    intro location k
    cases s with
    | nil => rfl
    | cons c cs =>
      simp only [peek_cons] at hs
      have : ¬ (c ≠ ' ' ∧ c ≠ NUL) := by
        rintro ⟨h1, h2⟩
        rcases hs with h | h
        · exact h1 h
        · exact h2 h
      simp [copy_location, this]
  | cons c cs ih =>
    intro location k
    have hc := (plain_iff c).1 (hw c (List.mem_cons_self _ _))
    simp only [List.cons_append, copy_location, ne_eq, hc.1, hc.2.1, not_false_eq_true,
      and_self, if_true]
    exact ih (fun d hd => hw d (List.mem_cons_of_mem _ hd)) _ _

/-- The redirection scan on `> out extra` never returns. -/
theorem set_redirection_out_extra (fuel : Nat) (out inp : Mem) :
    set_redirection fuel "> out extra".toList out inp = none := by
  cases fuel with
  | zero => rfl
  | succ fuel =>
    have hcur := copy_location_cursor "out".toList " extra".toList (by decide) (Or.inl rfl) out 0
    have e1 : "> out extra".toList = '>' :: ' ' :: ("out".toList ++ " extra".toList) := rfl
    have hsk : skip_spaces (' ' :: ("out".toList ++ " extra".toList))
        = "out".toList ++ " extra".toList := rfl
    have hs1 : skip_spaces ('>' :: ' ' :: ("out".toList ++ " extra".toList))
        = '>' :: ' ' :: ("out".toList ++ " extra".toList) := rfl
    rw [e1, set_redirection, if_pos (by decide)]
    simp only [hs1, peek_cons, if_true, List.tail_cons, hsk, hcur]
    cases fuel with
    | zero => rfl
    | succ fuel =>
      have h2 : skip_spaces " extra".toList = "extra".toList := rfl
      have h3 : ¬ (peek "extra".toList = '>') := by decide
      have h4 : ¬ (peek "extra".toList = '<') := by decide
      rw [set_redirection, if_pos (by decide)]
      simp only [h2, h3, h4, if_false]
      exact set_redirection_stuck fuel _ _ _ (by decide)

/-- C3, the code at the failing input `cmd > out extra`, a line without `|`: whatever the number
of iterations allowed, `get_command` does not return, because the loop of `set_redirection` stays
at the `e` of `extra` for ever. -/
theorem C3_no_return_on_trailing_word (fuel : Nat) (out inp : Mem) :
    is_pipe "cmd > out extra".toList = 0 ∧
    get_command fuel "cmd > out extra".toList out inp = none := by
  refine ⟨by decide, ?_⟩
  have hcount : count_args fuel "cmd > out extra".toList out inp 0 = none := by
    unfold count_args
    cases h : count_loop fuel (skip_spaces ("cmd > out extra".toList.drop 0)) 0 with
    | none => rfl
    | some r =>
      have h16 : count_loop 16 (skip_spaces ("cmd > out extra".toList.drop 0)) 0
          = some (0, "> out extra".toList) := by decide
      have := count_loop_det _ _ _ _ _ _ h h16
      subst this
      simp only [set_redirection_out_extra]
  simp only [get_command, hcount]

/-! ## Lines built from words, operators and paths -/

theorem spaced_tail_single (ws : List (List Char)) :
    spaced_tail (single_spaced ws) = (ws.map (fun w => ' ' :: w)).flatten := by
  induction ws with
  | nil => rfl
  | cons w r ih =>
    simp only [single_spaced, List.map_cons, spaced_tail, List.flatten_cons] at ih ⊢
    rw [ih]
    simp [spaces]

theorem join_words_eq_spaced (ws : List (List Char)) :
    join_words ws = spaced (single_spaced ws) := by
  cases ws with
  | nil => rfl
  | cons w r =>
    have h := spaced_tail_single r
    simp only [single_spaced, List.map_cons, spaced, spaces, List.replicate_zero,
      List.nil_append] at h ⊢
    rw [h]
    clear h
    induction r generalizing w with
    | nil => simp [join_words, List.intercalate]
    | cons w2 r2 ih =>
      have := ih w2
      simp only [join_words, List.intercalate, List.intersperse, List.flatten_cons,
        List.map_cons] at this ⊢
      rw [this]
      simp

theorem single_spaced_snd (ws : List (List Char)) : (single_spaced ws).map Prod.snd = ws := by
  simp [single_spaced, List.map_map, Function.comp_def]

theorem single_spaced_word (ws : List (List Char)) (h : ∀ w ∈ ws, is_word w) :
    ∀ it ∈ single_spaced ws, is_word it.2 := by
  intro it hit
  obtain ⟨w, hw, rfl⟩ := List.mem_map.1 hit
  exact h w hw

theorem single_spaced_ne_nil (ws : List (List Char)) (h : ws ≠ []) : single_spaced ws ≠ [] := by
  cases ws with
  | nil => exact absurd rfl h
  | cons w r => simp [single_spaced]

theorem spaces_add (a b : Nat) : spaces (a + b) = spaces a ++ spaces b := by
  unfold spaces
  exact List.replicate_add _ _ _

/-- Leading spaces in front of a layout are a layout. -/
theorem spaced_lead (lead k : Nat) (w : List Char) (r : List (Nat × List Char)) :
    spaces lead ++ spaced ((k, w) :: r) = spaced ((lead + k, w) :: r) := by
  simp only [spaced]
  rw [spaces_add]
  simp only [List.append_assoc]

/-- The two loops over one laid-out segment: `count_args` returns the number of words and
`parse_args` copies the words. -/
theorem segment_spaced (fuel : Nat) (buf : List Char) (index : Nat)
    (items : List (Nat × List Char)) (j : Nat) (e : List Char) (out inp o i : Mem)
    (hbuf : buf.drop index = spaced items ++ (spaces j ++ e)) (hne : items ≠ [])
    (hitems : ∀ it ∈ items, is_word it.2) (he : is_stop (peek e) = true)
    (hb : peek (spaces j ++ e) = ' ' ∨ peek (spaces j ++ e) = NUL)
    (hfuel : buf.length < fuel) (hsr : set_redirection fuel e out inp = some (o, i)) :
    count_args fuel buf out inp index = some (items.length, o, i) ∧
      parse_args items.length (buf.drop index)
        = items.map (fun it => { chars := it.2, nul := it.2.length + 1 }) ∧
      tokens (parse_args items.length (buf.drop index)) = items.map Prod.snd := by
  have h1 := count_args_spaced fuel buf index items j e out inp hbuf hne hitems he hfuel
  have h2 := parse_args_spaced items (spaces j ++ e) hitems hb
  rw [hsr] at h1
  rw [hbuf]
  exact ⟨h1, h2, by rw [h2, tokens_map_items]⟩

theorem get_command_single (fuel : Nat) (buf : List Char) (out inp o i : Mem) (n : Nat)
    (hp : is_pipe buf = 0) (hc : count_args fuel buf out inp 0 = some (n, o, i)) :
    get_command fuel buf out inp
      = some { first := parse_args n (buf.drop 0), second := none,
               outputLocation := o, inputLocation := i } := by
  simp only [get_command, hc, hp, ne_eq, not_true_eq_false, if_false]

theorem get_command_piped (fuel : Nat) (buf : List Char) (out inp o i o2 i2 : Mem) (n m p : Nat)
    (hp : is_pipe buf = p) (hp0 : p ≠ 0) (hc : count_args fuel buf out inp 0 = some (n, o, i))
    (hc2 : count_args fuel buf o i (p + 1) = some (m, o2, i2)) :
    get_command fuel buf out inp
      = some { first := parse_args n (buf.drop 0),
               second := some (parse_args m (buf.drop (p + 1))),
               outputLocation := o2, inputLocation := i2 } := by
  simp only [get_command, hc, hp, ne_eq, hp0, not_false_eq_true, if_true, hc2]

theorem mem_spaced_tail (items : List (Nat × List Char)) (c : Char)
    (h : c ∈ spaced_tail items) : c = ' ' ∨ ∃ it ∈ items, c ∈ it.2 := by
  induction items with
  | nil => simp [spaced_tail] at h
  | cons it r ih =>
    obtain ⟨k, w⟩ := it
    simp only [spaced_tail, List.mem_append] at h
    rcases h with (h | h) | h
    · left
      exact (List.mem_replicate.1 h).2
    · right
      exact ⟨(k, w), List.mem_cons_self _ _, h⟩
    · rcases ih h with h | ⟨it, hit, hc⟩
      · left; exact h
      · right; exact ⟨it, List.mem_cons_of_mem _ hit, hc⟩

theorem mem_spaced (items : List (Nat × List Char)) (c : Char)
    (h : c ∈ spaced items) : c = ' ' ∨ ∃ it ∈ items, c ∈ it.2 := by
  cases items with
  | nil => simp [spaced] at h
  | cons it r =>
    obtain ⟨k, w⟩ := it
    simp only [spaced, List.mem_append] at h
    rcases h with (h | h) | h
    · left
      exact (List.mem_replicate.1 h).2
    · right
      exact ⟨(k, w), List.mem_cons_self _ _, h⟩
    · rcases mem_spaced_tail r c h with h | ⟨it, hit, hc⟩
      · left; exact h
      · right; exact ⟨it, List.mem_cons_of_mem _ hit, hc⟩

theorem pipe_free_of_plain {c : Char} (h : plain c = true) : pipe_free c :=
  ⟨((plain_iff c).1 h).2.2.2.2, ((plain_iff c).1 h).2.1⟩

theorem pipe_free_spaced (items : List (Nat × List Char)) (hitems : ∀ it ∈ items, is_word it.2) :
    ∀ c ∈ spaced items, pipe_free c := by
  intro c hc
  rcases mem_spaced items c hc with rfl | ⟨it, hit, hc⟩
  · exact ⟨by decide, by decide⟩
  · exact pipe_free_of_plain ((hitems it hit).2 c hc)

theorem pipe_free_word (w : List Char) (hw : is_word w) : ∀ c ∈ w, pipe_free c :=
  fun c hc => pipe_free_of_plain (hw.2 c hc)

theorem cstr_clear_location (m : Mem) : cstr (clear_location m) = [] := by
  cases m with
  | nil => rfl
  | cons c cs => simp [clear_location, cstr, List.takeWhile_cons]

theorem length_clear_location (m : Mem) : (clear_location m).length = m.length := by
  simp [clear_location]

theorem peek_spaces_nil (j : Nat) : peek (spaces j ++ []) = ' ' ∨ peek (spaces j ++ []) = NUL := by
  cases j with
  | zero => right; rfl
  | succ j => left; rfl

/-- Tokenizing a layout of words followed by spaces up to the end of the string. -/
theorem tokenize_spaced (fuel : Nat) (items : List (Nat × List Char)) (trail : Nat)
    (out inp : Mem) (hne : items ≠ []) (hitems : ∀ it ∈ items, is_word it.2)
    (hfuel : (spaced items ++ spaces trail).length < fuel) :
    tokenize fuel (spaced items ++ spaces trail) out inp = some (items.map Prod.snd) := by
  obtain ⟨f, rfl⟩ : ∃ f, fuel = f + 1 := ⟨fuel - 1, by omega⟩
  have hsr : set_redirection (f + 1) [] out inp = some (out, inp) :=
    set_redirection_stop f [] out inp (Or.inl rfl)
  have h := segment_spaced (f + 1) (spaced items ++ spaces trail) 0 items trail [] out inp
    out inp (by simp) hne hitems rfl (peek_spaces_nil trail) hfuel hsr
  simp only [tokenize, h.1, Option.map_some', h.2.2]

/-- The characters copied by tokenizing: for every non-empty list of words laid out with runs of
one or more spaces between them and any number of leading and trailing spaces, `count_args`
returns the number of words and `parse_args` copies exactly the characters of the words, none
of them empty, into the blocks, and the same holds for the single-space join of the words. What
the blocks hold as strings afterwards is another matter: see `cstr_block_word`. -/
theorem tokenize_spaced_words (fuel fuel2 : Nat) (items : List (Nat × List Char))
    (trail : Nat) (out inp : Mem) (hne : items ≠ []) (hitems : ∀ it ∈ items, is_word it.2)
    (hfuel : (spaced items ++ spaces trail).length < fuel)
    (hfuel2 : (join_words (items.map Prod.snd)).length < fuel2) :
    tokenize fuel (spaced items ++ spaces trail) out inp = some (items.map Prod.snd) ∧
    [] ∉ items.map Prod.snd ∧
    tokenize fuel2 (join_words (items.map Prod.snd)) out inp = some (items.map Prod.snd) := by
  refine ⟨tokenize_spaced fuel items trail out inp hne hitems hfuel, ?_, ?_⟩
  · intro h
    obtain ⟨it, hit, hnil⟩ := List.mem_map.1 h
    exact (hitems it hit).1 hnil
  · have hw : ∀ w ∈ items.map Prod.snd, is_word w := by
      intro w hw
      obtain ⟨it, hit, rfl⟩ := List.mem_map.1 hw
      exact hitems it hit
    have hne2 : items.map Prod.snd ≠ [] := by
      intro h
      exact hne (List.map_eq_nil_iff.1 h)
    have := tokenize_spaced fuel2 (single_spaced (items.map Prod.snd)) 0 out inp
      (single_spaced_ne_nil _ hne2) (single_spaced_word _ hw)
      (by simpa [spaces, ← join_words_eq_spaced] using hfuel2)
    simpa [spaces, ← join_words_eq_spaced, single_spaced_snd] using this

/-- C9, the code at the failing input: for the line `  ls   -l ` and blocks that `malloc`
returned full of `x`, `count_args` returns 2 and the argument strings after `parse_args` are
`lsx` and `-lx`, not `ls` and `-l`, because each terminator is stored one index after the end of
the word and the byte in between keeps its old value; tokenizing the single-space join
`lsx -lx` of these strings gives `lsxx` and `-lxx`, not the same sequence. With blocks full of
terminators the strings are `ls` and `-l`. -/
theorem C9_argv_strings_retokenized :
    (count_args 11 "  ls   -l ".toList (List.replicate LOCATION_SIZE NUL)
        (List.replicate LOCATION_SIZE NUL) 0).map (fun r => r.1) = some 2 ∧
    argv_strings (fun _ => some (List.replicate ARG_SIZE 'x'))
        (parse_args 2 ("  ls   -l ".toList.drop 0)) = some ["lsx".toList, "-lx".toList] ∧
    join_words ["lsx".toList, "-lx".toList] = "lsx -lx".toList ∧
    (count_args 8 "lsx -lx".toList (List.replicate LOCATION_SIZE NUL)
        (List.replicate LOCATION_SIZE NUL) 0).map (fun r => r.1) = some 2 ∧
    argv_strings (fun _ => some (List.replicate ARG_SIZE 'x'))
        (parse_args 2 ("lsx -lx".toList.drop 0)) = some ["lsxx".toList, "-lxx".toList] ∧
    argv_strings (fun _ => some (List.replicate ARG_SIZE NUL))
        (parse_args 2 ("  ls   -l ".toList.drop 0)) = some ["ls".toList, "-l".toList] := by
  decide

/-- The characters copied and the paths for words followed by an output redirection: for every
non-empty list of words and every path, the line made of the words separated by single spaces,
then ` > ` and the path, if it fits the command buffer, is parsed with the characters of the
words copied into the blocks of segment 0, no second segment, the path as output path and an
empty input path (`main` has cleared both location arrays). -/
theorem get_command_words_output (fuel : Nat) (ws : List (List Char)) (path : List Char)
    (out inp : Mem) (hne : ws ≠ []) (hws : ∀ w ∈ ws, is_word w) (hpath : is_word path)
    (hline : (join_words ws ++ (" > ".toList ++ path)).length ≤ MAX_COMMAND_SIZE)
    (hout : out.length = LOCATION_SIZE)
    (hfuel : (join_words ws ++ (" > ".toList ++ path)).length < fuel) :
    ∃ r, get_command fuel (join_words ws ++ (" > ".toList ++ path))
          (clear_location out) (clear_location inp) = some r ∧
      tokens r.first = ws ∧ r.second = none ∧ cstr r.outputLocation = path ∧
      cstr r.inputLocation = [] := by
  have e1 : join_words ws ++ (" > ".toList ++ path)
      = spaced (single_spaced ws) ++ (spaces 1 ++ ('>' :: (spaces 1 ++ (path ++ [])))) := by
    rw [join_words_eq_spaced]
    simp [spaces]
  have hlen : path.length < (clear_location out).length := by
    rw [length_clear_location, hout]
    have h3 : (" > ".toList).length = 3 := rfl
    simp only [List.length_append, MAX_COMMAND_SIZE, COMMAND_BUFFER_SIZE] at hline
    simp only [LOCATION_SIZE]
    omega
  obtain ⟨f, rfl⟩ : ∃ f, fuel = f + 2 := by
    refine ⟨fuel - 2, ?_⟩
    simp only [List.length_append] at hfuel
    have : 0 < path.length := List.length_pos.2 hpath.1
    have : (" > ".toList).length = 3 := rfl
    omega
  have hsr : set_redirection (f + 2) ('>' :: (spaces 1 ++ (path ++ [])))
      (clear_location out) (clear_location inp)
      = some (store (clear_location out) path, clear_location inp) := by
    have := set_redirection_out (f + 1) 0 1 path [] (clear_location out) (clear_location inp)
      hpath (Or.inr rfl) hlen
    simp only [spaces, List.replicate_zero, List.nil_append] at this ⊢
    rw [this]
    exact set_redirection_stop f [] _ _ (Or.inl rfl)
  have hseg := segment_spaced (f + 2) (join_words ws ++ (" > ".toList ++ path)) 0
    (single_spaced ws) 1 ('>' :: (spaces 1 ++ (path ++ []))) (clear_location out)
    (clear_location inp) _ _ (by rw [List.drop_zero]; exact e1) (single_spaced_ne_nil ws hne)
    (single_spaced_word ws hws) rfl (Or.inl rfl) hfuel hsr
  have hpipe : is_pipe (join_words ws ++ (" > ".toList ++ path)) = 0 := by
    apply is_pipe_loop_none
    intro c hc
    rw [join_words_eq_spaced] at hc
    rcases List.mem_append.1 hc with h | h
    · exact (pipe_free_spaced _ (single_spaced_word ws hws) c h).1
    · rcases List.mem_append.1 h with h | h
      · have h3 : ∀ d ∈ " > ".toList, d ≠ '|' := by decide
        exact h3 c h
      · exact (pipe_free_word path hpath c h).1
  refine ⟨_, get_command_single _ _ _ _ _ _ _ hpipe hseg.1, ?_, rfl, ?_, ?_⟩
  · simp only [hseg.2.2, single_spaced_snd]
  · exact cstr_store _ _ hpath.2
  · exact cstr_clear_location inp

/-- C5, the code at the failing input: for the line `cmd a b > out.txt` and blocks that `malloc`
returned full of `x`, `get_command` returns one segment whose argument strings are `cmdx`, `ax`
and `bx`, not `cmd`, `a` and `b`, because `parse_args` stores each terminator one index after the
end of the word and the byte in between keeps its old value. The output path is `out.txt` and
the input path is empty, as claimed; with blocks full of terminators the argument strings are
the words. -/
theorem C5_argv_strings_cmd_a_b :
    ∃ r, get_command 18 "cmd a b > out.txt".toList
          (clear_location (List.replicate LOCATION_SIZE 'x'))
          (clear_location (List.replicate LOCATION_SIZE 'y')) = some r ∧
      argv_strings (fun _ => some (List.replicate ARG_SIZE 'x')) r.first
        = some ["cmdx".toList, "ax".toList, "bx".toList] ∧
      argv_strings (fun _ => some (List.replicate ARG_SIZE NUL)) r.first
        = some ["cmd".toList, "a".toList, "b".toList] ∧
      r.second = none ∧ cstr r.outputLocation = "out.txt".toList ∧ cstr r.inputLocation = [] :=
  ⟨_, rfl, by decide, by decide, rfl, by decide, by decide⟩

/-! ## Two redirections -/

theorem length_store (location : Mem) (w : List Char) (h : w.length < location.length) :
    (store location w).length = location.length := by
  simp only [store, List.length_append, List.length_cons, List.length_drop]
  omega

theorem set_redirection_in_out (fuel : Nat) (a b : List Char) (out inp : Mem) (ha : is_word a)
    (hb : is_word b) (hla : a.length < inp.length) (hlb : b.length < out.length) :
    set_redirection (fuel + 3) (in_out a b) out inp = some (store out b, store inp a) := by
  have h1 := set_redirection_in (fuel + 2) 0 1 a (spaces 1 ++ '>' :: (spaces 1 ++ (b ++ [])))
    out inp ha (Or.inl rfl) hla
  have h2 := set_redirection_out (fuel + 1) 1 1 b [] out (store inp a) hb (Or.inr rfl) hlb
  have e : in_out a b
      = spaces 0 ++ '<' :: (spaces 1 ++ (a ++ (spaces 1 ++ '>' :: (spaces 1 ++ (b ++ []))))) := by
    simp [in_out, spaces]
  rw [e, h1, h2]
  exact set_redirection_stop fuel [] _ _ (Or.inl rfl)

theorem set_redirection_out_in (fuel : Nat) (a b : List Char) (out inp : Mem) (ha : is_word a)
    (hb : is_word b) (hla : a.length < inp.length) (hlb : b.length < out.length) :
    set_redirection (fuel + 3) (out_in b a) out inp = some (store out b, store inp a) := by
  have h1 := set_redirection_out (fuel + 2) 0 1 b (spaces 1 ++ '<' :: (spaces 1 ++ (a ++ [])))
    out inp hb (Or.inl rfl) hlb
  have h2 := set_redirection_in (fuel + 1) 1 1 a [] (store out b) inp ha (Or.inr rfl) hla
  have e : out_in b a
      = spaces 0 ++ '>' :: (spaces 1 ++ (b ++ (spaces 1 ++ '<' :: (spaces 1 ++ (a ++ []))))) := by
    simp [out_in, spaces]
  rw [e, h1, h2]
  exact set_redirection_stop fuel [] _ _ (Or.inl rfl)

theorem set_redirection_out_out (fuel : Nat) (p1 p2 : List Char) (out inp : Mem)
    (h1 : is_word p1) (h2 : is_word p2) (hl1 : p1.length < out.length)
    (hl2 : p2.length < out.length) :
    set_redirection (fuel + 3) (out_out p1 p2) out inp
      = some (store (store out p1) p2, inp) := by
  have s1 := set_redirection_out (fuel + 2) 0 1 p1
    (spaces 1 ++ '>' :: (spaces 1 ++ (p2 ++ []))) out inp h1 (Or.inl rfl) hl1
  have s2 := set_redirection_out (fuel + 1) 1 1 p2 [] (store out p1) inp h2 (Or.inr rfl)
    (by rw [length_store out p1 hl1]; exact hl2)
  have e : out_out p1 p2
      = spaces 0 ++ '>' :: (spaces 1 ++ (p1 ++ (spaces 1 ++ '>' :: (spaces 1 ++ (p2 ++ []))))) := by
    simp [out_out, spaces]
  rw [e, s1, s2]
  exact set_redirection_stop fuel [] _ _ (Or.inl rfl)

theorem set_redirection_in_in (fuel : Nat) (p1 p2 : List Char) (out inp : Mem)
    (h1 : is_word p1) (h2 : is_word p2) (hl1 : p1.length < inp.length)
    (hl2 : p2.length < inp.length) :
    set_redirection (fuel + 3) (in_in p1 p2) out inp
      = some (out, store (store inp p1) p2) := by
  have s1 := set_redirection_in (fuel + 2) 0 1 p1
    (spaces 1 ++ '<' :: (spaces 1 ++ (p2 ++ []))) out inp h1 (Or.inl rfl) hl1
  have s2 := set_redirection_in (fuel + 1) 1 1 p2 [] out (store inp p1) h2 (Or.inr rfl)
    (by rw [length_store inp p1 hl1]; exact hl2)
  have e : in_in p1 p2
      = spaces 0 ++ '<' :: (spaces 1 ++ (p1 ++ (spaces 1 ++ '<' :: (spaces 1 ++ (p2 ++ []))))) := by
    simp [in_in, spaces]
  rw [e, s1, s2]
  exact set_redirection_stop fuel [] _ _ (Or.inl rfl)

theorem tokens_word_args (ws : List (List Char)) : tokens (word_args ws) = ws := by
  simp [tokens, word_args, List.map_map, Function.comp_def]

theorem map_single_spaced (ws : List (List Char)) :
    (single_spaced ws).map (fun it => ({ chars := it.2, nul := it.2.length + 1 } : Arg))
      = word_args ws := by
  simp [single_spaced, word_args, List.map_map, Function.comp_def]

/-- A line made of words separated by single spaces, one space, and a tail that starts with an
operator and holds no pipe: if the redirection scan returns on the tail, `get_command` returns
the words as the only segment. -/
theorem get_command_words_tail (fuel : Nat) (ws : List (List Char)) (tail : List Char)
    (out inp o i : Mem) (hne : ws ≠ []) (hws : ∀ w ∈ ws, is_word w)
    (hstop : is_stop (peek tail) = true) (htail : ∀ c ∈ tail, c ≠ '|')
    (hfuel : (join_words ws ++ ' ' :: tail).length < fuel)
    (hsr : set_redirection fuel tail out inp = some (o, i)) :
    count_args fuel (join_words ws ++ ' ' :: tail) out inp 0 = some (ws.length, o, i) ∧
    get_command fuel (join_words ws ++ ' ' :: tail) out inp
      = some { first := word_args ws, second := none, outputLocation := o,
               inputLocation := i } := by
  have e1 : join_words ws ++ ' ' :: tail = spaced (single_spaced ws) ++ (spaces 1 ++ tail) := by
    rw [join_words_eq_spaced]
    rfl
  have hseg := segment_spaced fuel (join_words ws ++ ' ' :: tail) 0 (single_spaced ws) 1 tail
    out inp o i (by rw [List.drop_zero]; exact e1) (single_spaced_ne_nil ws hne)
    (single_spaced_word ws hws) hstop (Or.inl rfl) hfuel hsr
  have hpipe : is_pipe (join_words ws ++ ' ' :: tail) = 0 := by
    apply is_pipe_loop_none
    intro c hc
    rw [join_words_eq_spaced] at hc
    rcases List.mem_append.1 hc with h | h
    · exact (pipe_free_spaced _ (single_spaced_word ws hws) c h).1
    · rcases List.mem_cons.1 h with rfl | h
      · decide
      · exact htail c h
  have hlen : (single_spaced ws).length = ws.length := by simp [single_spaced]
  refine ⟨by rw [← hlen]; exact hseg.1, ?_⟩
  rw [get_command_single _ _ _ _ _ _ _ hpipe hseg.1, hseg.2.1, map_single_spaced]

theorem ne_pipe_of_word (w : List Char) (hw : is_word w) : ∀ c ∈ w, c ≠ '|' :=
  fun c hc => (pipe_free_word w hw c hc).1

theorem ne_pipe_two (x y p q : List Char) (hx : ∀ c ∈ x, c ≠ '|') (hy : ∀ c ∈ y, c ≠ '|')
    (hp : is_word p) (hq : is_word q) : ∀ c ∈ x ++ (p ++ (y ++ q)), c ≠ '|' := by
  intro c hc
  rcases List.mem_append.1 hc with h | h
  · exact hx c h
  · rcases List.mem_append.1 h with h | h
    · exact ne_pipe_of_word p hp c h
    · rcases List.mem_append.1 h with h | h
      · exact hy c h
      · exact ne_pipe_of_word q hq c h

theorem length_in_out (a b : List Char) : (in_out a b).length = a.length + b.length + 5 := by
  simp [in_out]
  omega

theorem length_out_in (a b : List Char) : (out_in b a).length = a.length + b.length + 5 := by
  simp [out_in]
  omega

theorem length_out_out (a b : List Char) : (out_out a b).length = a.length + b.length + 5 := by
  simp [out_out]
  omega

theorem length_in_in (a b : List Char) : (in_in a b).length = a.length + b.length + 5 := by
  simp [in_in]
  omega

/-- The two orders of an input and an output redirection: for every non-empty list of words `ws`
and paths `a`, `b`, the lines `ws < a > b` and `ws > b < a` (single spaces, fitting the command
buffer) give the same stores: the characters of `ws` copied into the blocks, no second segment,
input path `a` and output path `b`. -/
theorem get_command_redirection_order (fuel : Nat) (ws : List (List Char)) (a b : List Char)
    (out inp : Mem) (hne : ws ≠ []) (hws : ∀ w ∈ ws, is_word w) (ha : is_word a)
    (hb : is_word b)
    (hline : (join_words ws ++ ' ' :: in_out a b).length ≤ MAX_COMMAND_SIZE)
    (hout : out.length = LOCATION_SIZE) (hinp : inp.length = LOCATION_SIZE)
    (hfuel : (join_words ws ++ ' ' :: in_out a b).length < fuel) :
    ∃ r, get_command fuel (join_words ws ++ ' ' :: in_out a b) out inp = some r ∧
      get_command fuel (join_words ws ++ ' ' :: out_in b a) out inp = some r ∧
      tokens r.first = ws ∧ r.second = none ∧ cstr r.inputLocation = a ∧
      cstr r.outputLocation = b := by
  have hl1 := length_in_out a b
  have hl2 := length_out_in a b
  simp only [List.length_append, List.length_cons, hl1, MAX_COMMAND_SIZE,
    COMMAND_BUFFER_SIZE] at hline
  have hfuel2 : (join_words ws ++ ' ' :: out_in b a).length < fuel := by
    simp only [List.length_append, List.length_cons, hl1, hl2] at hfuel ⊢
    exact hfuel
  have hla : a.length < inp.length := by rw [hinp, LOCATION_SIZE]; omega
  have hlb : b.length < out.length := by rw [hout, LOCATION_SIZE]; omega
  obtain ⟨f, rfl⟩ : ∃ f, fuel = f + 3 := by
    refine ⟨fuel - 3, ?_⟩
    simp only [List.length_append, List.length_cons, hl1] at hfuel
    omega
  have s1 := set_redirection_in_out f a b out inp ha hb hla hlb
  have s2 := set_redirection_out_in f a b out inp ha hb hla hlb
  have t1 : ∀ c ∈ in_out a b, c ≠ '|' :=
    ne_pipe_two "< ".toList " > ".toList a b (by decide) (by decide) ha hb
  have t2 : ∀ c ∈ out_in b a, c ≠ '|' :=
    ne_pipe_two "> ".toList " < ".toList b a (by decide) (by decide) hb ha
  have g1 := (get_command_words_tail (f + 3) ws (in_out a b) out inp _ _ hne hws rfl t1
    hfuel s1).2
  have g2 := (get_command_words_tail (f + 3) ws (out_in b a) out inp _ _ hne hws rfl t2
    hfuel2 s2).2
  exact ⟨_, g1, g2, tokens_word_args ws, rfl, cstr_store _ _ ha.2, cstr_store _ _ hb.2⟩

/-- C7, the code at the failing input: for the lines `cmd < in.txt > out.txt` and
`cmd > out.txt < in.txt` the input path is `in.txt` and the output path is `out.txt` in both
orders, as claimed, but the argument string is not `cmd`: with a block that `malloc` returned
full of `x` it is `cmdx`, and with a block full of `y` it is `cmdy`, because `parse_args` stores
the terminator one index after the end of the word and the byte in between keeps its old value.
So the two lines need not parse to the same argument strings either. -/
theorem C7_argv_strings_both_orders :
    ∃ r, get_command 24 "cmd < in.txt > out.txt".toList (List.replicate LOCATION_SIZE 'x')
          (List.replicate LOCATION_SIZE 'y') = some r ∧
      get_command 24 "cmd > out.txt < in.txt".toList (List.replicate LOCATION_SIZE 'x')
          (List.replicate LOCATION_SIZE 'y') = some r ∧
      argv_strings (fun _ => some (List.replicate ARG_SIZE 'x')) r.first
        = some ["cmdx".toList] ∧
      argv_strings (fun _ => some (List.replicate ARG_SIZE 'y')) r.first
        = some ["cmdy".toList] ∧
      r.second = none ∧ cstr r.inputLocation = "in.txt".toList ∧
      cstr r.outputLocation = "out.txt".toList :=
  ⟨_, rfl, rfl, by decide, by decide, rfl, by decide, by decide⟩

/-- C8.  For every segment `ws > p1 > p2` (single spaces, fitting the command buffer) the scan
of `set_redirection`, on its own and inside `count_args`, leaves in `outputLocation` exactly the
C string `p2`, whatever the lengths of `p1` and `p2`, and leaves `inputLocation` as it was; and for
`ws < p1 < p2` it leaves `p2` in `inputLocation` and `outputLocation` as it was. -/
theorem C8_later_redirection_wins (fuel : Nat) (ws : List (List Char)) (p1 p2 : List Char)
    (out inp : Mem) (hne : ws ≠ []) (hws : ∀ w ∈ ws, is_word w) (h1 : is_word p1)
    (h2 : is_word p2)
    (hline : (join_words ws ++ ' ' :: out_out p1 p2).length ≤ MAX_COMMAND_SIZE)
    (hout : out.length = LOCATION_SIZE) (hinp : inp.length = LOCATION_SIZE)
    (hfuel : (join_words ws ++ ' ' :: out_out p1 p2).length < fuel) :
    (∃ o, set_redirection fuel (out_out p1 p2) out inp = some (o, inp) ∧
      count_args fuel (join_words ws ++ ' ' :: out_out p1 p2) out inp 0
        = some (ws.length, o, inp) ∧ cstr o = p2) ∧
    (∃ i, set_redirection fuel (in_in p1 p2) out inp = some (out, i) ∧
      count_args fuel (join_words ws ++ ' ' :: in_in p1 p2) out inp 0
        = some (ws.length, out, i) ∧ cstr i = p2) := by
  have hl1 := length_out_out p1 p2
  have hl2 := length_in_in p1 p2
  simp only [List.length_append, List.length_cons, hl1, MAX_COMMAND_SIZE,
    COMMAND_BUFFER_SIZE] at hline
  have hfuel2 : (join_words ws ++ ' ' :: in_in p1 p2).length < fuel := by
    simp only [List.length_append, List.length_cons, hl1, hl2] at hfuel ⊢
    exact hfuel
  obtain ⟨f, rfl⟩ : ∃ f, fuel = f + 3 := by
    refine ⟨fuel - 3, ?_⟩
    simp only [List.length_append, List.length_cons, hl1] at hfuel
    omega
  have s1 := set_redirection_out_out f p1 p2 out inp h1 h2
    (by rw [hout, LOCATION_SIZE]; omega) (by rw [hout, LOCATION_SIZE]; omega)
  have s2 := set_redirection_in_in f p1 p2 out inp h1 h2
    (by rw [hinp, LOCATION_SIZE]; omega) (by rw [hinp, LOCATION_SIZE]; omega)
  have t1 : ∀ c ∈ out_out p1 p2, c ≠ '|' :=
    ne_pipe_two "> ".toList " > ".toList p1 p2 (by decide) (by decide) h1 h2
  have t2 : ∀ c ∈ in_in p1 p2, c ≠ '|' :=
    ne_pipe_two "< ".toList " < ".toList p1 p2 (by decide) (by decide) h1 h2
  have g1 := (get_command_words_tail (f + 3) ws (out_out p1 p2) out inp _ _ hne hws rfl t1
    hfuel s1).1
  have g2 := (get_command_words_tail (f + 3) ws (in_in p1 p2) out inp _ _ hne hws rfl t2
    hfuel2 s2).1
  exact ⟨⟨_, s1, g1, cstr_store _ _ h2.2⟩, ⟨_, s2, g2, cstr_store _ _ h2.2⟩⟩

/-- C8, witness: `cmd > a-long-name > b`, with stale bytes in the arrays. -/
theorem C8_later_redirection_wins_witness :
    ∃ o, set_redirection 22 "> a-long-name > b".toList (List.replicate LOCATION_SIZE 'x')
          (List.replicate LOCATION_SIZE 'y') = some (o, List.replicate LOCATION_SIZE 'y') ∧
      count_args 22 "cmd > a-long-name > b".toList (List.replicate LOCATION_SIZE 'x')
          (List.replicate LOCATION_SIZE 'y') 0 = some (1, o, List.replicate LOCATION_SIZE 'y') ∧
      cstr o = "b".toList :=
  (C8_later_redirection_wins 22 ["cmd".toList] "a-long-name".toList "b".toList
    (List.replicate LOCATION_SIZE 'x') (List.replicate LOCATION_SIZE 'y')
    (by decide) (by decide) (by decide) (by decide) (by decide) (by decide) (by decide)
    (by decide)).1

/-! ## A pipe with redirection on both sides -/

/-- The characters copied and the paths for a pipe with a redirection on each side: for every
non-empty lists of words `ws1`, `ws2` and paths `a`, `b`, the line `ws1 < a | ws2 > b` (single
spaces around each operator, fitting the command buffer) is parsed with the characters of `ws1`
copied into the blocks of segment 0, those of `ws2` into the blocks of segment 1, input path `a`
and output path `b`. -/
theorem get_command_pipe_redirections (fuel : Nat) (ws1 ws2 : List (List Char)) (a b : List Char)
    (out inp : Mem) (hne1 : ws1 ≠ []) (hne2 : ws2 ≠ []) (hws1 : ∀ w ∈ ws1, is_word w)
    (hws2 : ∀ w ∈ ws2, is_word w) (ha : is_word a) (hb : is_word b)
    (hline : (piped_line ws1 a ws2 b).length ≤ MAX_COMMAND_SIZE)
    (hout : out.length = LOCATION_SIZE) (hinp : inp.length = LOCATION_SIZE)
    (hfuel : (piped_line ws1 a ws2 b).length < fuel) :
    ∃ r, get_command fuel (piped_line ws1 a ws2 b) out inp = some r ∧
      tokens r.first = ws1 ∧ r.second.map tokens = some ws2 ∧ cstr r.inputLocation = a ∧
      cstr r.outputLocation = b := by
  obtain ⟨w2, r2, rfl⟩ : ∃ w2 r2, ws2 = w2 :: r2 := by
    cases ws2 with
    | nil => exact absurd rfl hne2
    | cons w r => exact ⟨w, r, rfl⟩
  have hlen3 : (" < ".toList).length = 3 ∧ (" | ".toList).length = 3
      ∧ (" > ".toList).length = 3 := ⟨rfl, rfl, rfl⟩
  have hlen : (piped_line ws1 a (w2 :: r2) b).length
      = (join_words ws1).length + a.length + (join_words (w2 :: r2)).length + b.length + 9 := by
    simp only [piped_line, List.length_append, hlen3.1, hlen3.2.1, hlen3.2.2]
    omega
  rw [hlen] at hline hfuel
  simp only [MAX_COMMAND_SIZE, COMMAND_BUFFER_SIZE] at hline
  have hla : a.length < inp.length := by rw [hinp, LOCATION_SIZE]; omega
  have hlb : b.length < out.length := by rw [hout, LOCATION_SIZE]; omega
  obtain ⟨f, rfl⟩ : ∃ f, fuel = f + 3 := ⟨fuel - 3, by omega⟩
  -- the line around its pipe
  let post : List Char := ' ' :: (join_words (w2 :: r2) ++ (" > ".toList ++ b))
  let pre : List Char := join_words ws1 ++ (" < ".toList ++ (a ++ [' ']))
  have hsplit : piped_line ws1 a (w2 :: r2) b = pre ++ '|' :: post := by
    simp [piped_line, pre, post]
  have hpre : ∀ c ∈ pre, c ≠ '|' ∧ c ≠ NUL := by
    intro c hc
    rcases List.mem_append.1 hc with h | h
    · rw [join_words_eq_spaced] at h
      exact pipe_free_spaced _ (single_spaced_word ws1 hws1) c h
    · rcases List.mem_append.1 h with h | h
      · have h3 : ∀ d ∈ " < ".toList, d ≠ '|' ∧ d ≠ NUL := by decide
        exact h3 c h
      · rcases List.mem_append.1 h with h | h
        · exact pipe_free_word a ha c h
        · rw [List.mem_singleton] at h
          subst h
          exact ⟨by decide, by decide⟩
  have hpipe : is_pipe (piped_line ws1 a (w2 :: r2) b) = pre.length := by
    rw [hsplit]
    have := is_pipe_loop_at pre post hpre 0
    simpa [is_pipe] using this
  have hp0 : pre.length ≠ 0 := by
    simp [pre]
  -- segment 0
  have e1 : piped_line ws1 a (w2 :: r2) b = spaced (single_spaced ws1)
      ++ (spaces 1 ++ ('<' :: (spaces 1 ++ (a ++ (spaces 1 ++ '|' :: post))))) := by
    rw [← join_words_eq_spaced]
    simp [piped_line, post, spaces]
  have s1 : set_redirection (f + 3) ('<' :: (spaces 1 ++ (a ++ (spaces 1 ++ '|' :: post))))
      out inp = some (out, store inp a) := by
    have h := set_redirection_in (f + 2) 0 1 a (spaces 1 ++ '|' :: post) out inp ha
      (Or.inl rfl) hla
    simp only [spaces, List.replicate_zero, List.nil_append] at h ⊢
    rw [h]
    exact set_redirection_end f 1 ('|' :: post) out (store inp a) (Or.inr rfl)
  have hfuel1 : (piped_line ws1 a (w2 :: r2) b).length < f + 3 := by rw [hlen]; exact hfuel
  have g1 := segment_spaced (f + 3) (piped_line ws1 a (w2 :: r2) b) 0 (single_spaced ws1) 1
    ('<' :: (spaces 1 ++ (a ++ (spaces 1 ++ '|' :: post)))) out inp _ _
    (by rw [List.drop_zero]; exact e1) (single_spaced_ne_nil ws1 hne1)
    (single_spaced_word ws1 hws1) rfl (Or.inl rfl) hfuel1 s1
  -- segment 1
  have e2 : (piped_line ws1 a (w2 :: r2) b).drop (pre.length + 1)
      = spaced ((1 + 0, w2) :: single_spaced r2)
        ++ (spaces 1 ++ ('>' :: (spaces 1 ++ (b ++ [])))) := by
    have hd : (piped_line ws1 a (w2 :: r2) b).drop (pre.length + 1) = post := by
      rw [hsplit, show pre ++ '|' :: post = (pre ++ ['|']) ++ post by simp]
      exact List.drop_left' (by simp)
    rw [hd, ← spaced_lead 1 0 w2 (single_spaced r2)]
    have : spaced ((0, w2) :: single_spaced r2) = join_words (w2 :: r2) := by
      rw [join_words_eq_spaced]
      rfl
    rw [this]
    simp [post, spaces]
  have s2 : set_redirection (f + 3) ('>' :: (spaces 1 ++ (b ++ []))) out (store inp a)
      = some (store out b, store inp a) := by
    have h := set_redirection_out (f + 2) 0 1 b [] out (store inp a) hb (Or.inr rfl) hlb
    simp only [spaces, List.replicate_zero, List.nil_append] at h ⊢
    rw [h]
    exact set_redirection_stop (f + 1) [] _ _ (Or.inl rfl)
  have hit2 : ∀ it ∈ (1 + 0, w2) :: single_spaced r2, is_word it.2 := by
    intro it hit
    rcases List.mem_cons.1 hit with rfl | hit
    · exact hws2 w2 (List.mem_cons_self _ _)
    · exact single_spaced_word r2 (fun w hw => hws2 w (List.mem_cons_of_mem _ hw)) it hit
  have g2 := segment_spaced (f + 3) (piped_line ws1 a (w2 :: r2) b) (pre.length + 1)
    ((1 + 0, w2) :: single_spaced r2) 1 ('>' :: (spaces 1 ++ (b ++ []))) out (store inp a) _ _
    e2 (List.cons_ne_nil _ _)
    hit2 rfl (Or.inl rfl) hfuel1 s2
  refine ⟨_, get_command_piped _ _ _ _ _ _ _ _ _ _ _ hpipe hp0 g1.1 g2.1, ?_, ?_, ?_, ?_⟩
  · simp only [g1.2.2, single_spaced_snd]
  · simp only [Option.map_some', g2.2.2, List.map_cons, single_spaced_snd]
  · exact cstr_store _ _ ha.2
  · exact cstr_store _ _ hb.2

/-- C6, the code at the failing input: for the line `gen < in.txt | sort > out.txt` and blocks
that `malloc` returned full of `x`, the argument string of segment 0 is `genx` and that of
segment 1 is `sortx`, not `gen` and `sort`, because `parse_args` stores each terminator one index
after the end of the word and the byte in between keeps its old value. The input path is
`in.txt` and the output path is `out.txt`, as claimed; with blocks full of terminators the
argument strings are the words. -/
theorem C6_argv_strings_gen_sort :
    ∃ r, get_command 30 "gen < in.txt | sort > out.txt".toList
          (List.replicate LOCATION_SIZE 'x') (List.replicate LOCATION_SIZE 'y') = some r ∧
      argv_strings (fun _ => some (List.replicate ARG_SIZE 'x')) r.first
        = some ["genx".toList] ∧
      r.second.map (argv_strings (fun _ => some (List.replicate ARG_SIZE 'x')))
        = some (some ["sortx".toList]) ∧
      argv_strings (fun _ => some (List.replicate ARG_SIZE NUL)) r.first
        = some ["gen".toList] ∧
      r.second.map (argv_strings (fun _ => some (List.replicate ARG_SIZE NUL)))
        = some (some ["sort".toList]) ∧
      cstr r.inputLocation = "in.txt".toList ∧ cstr r.outputLocation = "out.txt".toList :=
  ⟨_, rfl, by decide, by decide, by decide, by decide, by decide, by decide⟩

/-! ## Segments without a word -/

theorem length_parse_args (n : Nat) : ∀ s : List Char, (parse_args n s).length = n := by
  induction n with
  | zero => intro s; rfl
  | succ n ih => intro s; simp [parse_args, ih]

theorem count_args_pos (fuel : Nat) (buf : List Char) (out inp o i : Mem) (index n : Nat)
    (h : count_args fuel buf out inp index = some (n, o, i)) : 1 ≤ n := by
  unfold count_args at h
  cases h1 : count_loop fuel (skip_spaces (buf.drop index)) 0 with
  | none => rw [h1] at h; simp at h
  | some p =>
    rw [h1] at h
    cases h2 : set_redirection fuel p.2 out inp with
    | none => simp [h2] at h
    | some q =>
      simp only [h2, Option.some.injEq, Prod.mk.injEq] at h
      omega

/-- Every segment that `get_command` returns has at least one argument block. -/
theorem get_command_segments_pos (fuel : Nat) (buf : List Char) (out inp : Mem) (r : Parsed)
    (h : get_command fuel buf out inp = some r) :
    1 ≤ r.first.length ∧ ∀ s, r.second = some s → 1 ≤ s.length := by
  cases h1 : count_args fuel buf out inp 0 with
  | none => simp [get_command, h1] at h
  | some p =>
    obtain ⟨n, o, i⟩ := p
    have hn := count_args_pos fuel buf out inp o i 0 n h1
    by_cases hp : is_pipe buf = 0
    · rw [get_command_single fuel buf out inp o i n hp h1, Option.some.injEq] at h
      subst h
      refine ⟨by simpa [length_parse_args] using hn, ?_⟩
      intro s hs
      simp at hs
    · cases h2 : count_args fuel buf o i (is_pipe buf + 1) with
      | none => simp [get_command, h1, h2, hp] at h
      | some q =>
        obtain ⟨m, o2, i2⟩ := q
        have hm := count_args_pos fuel buf o i o2 i2 _ m h2
        rw [get_command_piped fuel buf out inp o i o2 i2 n m _ rfl hp h1 h2,
          Option.some.injEq] at h
        subst h
        refine ⟨by simpa [length_parse_args] using hn, ?_⟩
        intro s hs
        simp only [Option.some.injEq] at hs
        subst hs
        simpa [length_parse_args] using hm

/-- A line of spaces only is parsed into one segment with one token that holds no character. -/
theorem get_command_blank (fuel j : Nat) (out inp : Mem) :
    get_command (fuel + 1) (spaces j) out inp
      = some { first := [{ chars := [], nul := 1 }], second := none,
               outputLocation := out, inputLocation := inp } := by
  have hc : count_args (fuel + 1) (spaces j) out inp 0 = some (1, out, inp) := by
    have := count_args_blank fuel (spaces j) 0 j [] out inp (by simp) rfl
    rw [this, set_redirection_stop fuel [] out inp (Or.inl rfl)]
    rfl
  have hp : is_pipe (spaces j) = 0 := by
    apply is_pipe_loop_none
    intro c hc
    rw [(List.mem_replicate.1 hc).2]
    decide
  have hsk : skip_spaces (spaces j) = [] := by
    have := skip_spaces_spaces j []
    simpa [skip_spaces] using this
  rw [get_command_single _ _ _ _ _ _ _ hp hc]
  simp [parse_args, hsk, copy_arg]

/-- C10, as amended.  `get_command` has no parse error.  For every buffer and start offset whose
segment holds no word and on which the redirection scan returns, `count_args` returns 1 and
`parse_args` fills one argument block; a line that is empty or consists of spaces is parsed into a
single segment with one token that holds no character; and every segment that `get_command`
returns has at least one argument block. -/
theorem C10_segment_without_word (fuel : Nat) (buf : List Char) (index : Nat) (out inp : Mem)
    (hzero : words (segment_text buf index) = [])
    (hscan : (set_redirection (fuel + 1) (segment_rest buf index) out inp).isSome = true) :
    (∃ o i, count_args (fuel + 1) buf out inp index = some (1, o, i)) ∧
    (parse_args 1 (buf.drop index)).length = 1 ∧
    (∀ j, get_command (fuel + 1) (spaces j) out inp
      = some { first := [{ chars := [], nul := 1 }], second := none,
               outputLocation := out, inputLocation := inp }) ∧
    (∀ f b o i r, get_command f b o i = some r →
      1 ≤ r.first.length ∧ ∀ s, r.second = some s → 1 ≤ s.length) := by
  refine ⟨?_, length_parse_args 1 _, fun j => get_command_blank fuel j out inp,
    fun f b o i r h => get_command_segments_pos f b o i r h⟩
  obtain ⟨items, j, hseg, hitems⟩ :=
    exists_spaced (segment_text buf index) (not_is_stop_of_mem_takeWhile (buf.drop index))
  have hw : words (segment_text buf index) = items.map Prod.snd := by
    rw [hseg]
    exact words_spaced items j hitems
  have hnil : items = [] := by
    rw [hw] at hzero
    exact List.map_eq_nil_iff.1 hzero
  subst hnil
  have hbuf : buf.drop index = spaces j ++ segment_rest buf index := by
    have := (List.takeWhile_append_dropWhile (fun c => !is_stop c) (buf.drop index)).symm
    rw [show List.takeWhile (fun c => !is_stop c) (buf.drop index) = segment_text buf index
      from rfl, hseg] at this
    simpa [spaced, segment_rest] using this
  have hc := count_args_blank fuel buf index j (segment_rest buf index) out inp hbuf
    (is_stop_peek_dropWhile _)
  cases hsr : set_redirection (fuel + 1) (segment_rest buf index) out inp with
  | none => rw [hsr] at hscan; exact absurd hscan (by simp)
  | some p => exact ⟨p.1, p.2, by rw [hc, hsr]; rfl⟩

/-- C10, witness: the text after the pipe of `ls | ` holds no word. -/
theorem C10_segment_without_word_witness :
    ∃ o i, count_args 6 "ls | ".toList (List.replicate LOCATION_SIZE 'x')
      (List.replicate LOCATION_SIZE 'y') 4 = some (1, o, i) :=
  (C10_segment_without_word 5 "ls | ".toList 4 (List.replicate LOCATION_SIZE 'x')
    (List.replicate LOCATION_SIZE 'y') (by decide) (by decide)).1

/-- C10, counterexample to the claim as stated: the empty line holds no word, yet `get_command`
returns, and the segment it returns has one token. -/
theorem C10_counterexample :
    words (segment_text [] 0) = [] ∧
    ∃ r, get_command 1 [] (clear_location (List.replicate LOCATION_SIZE 'x'))
        (clear_location (List.replicate LOCATION_SIZE 'y')) = some r ∧ 1 ≤ r.first.length :=
  ⟨by decide, _, rfl, by decide⟩

/-! ## The input phase -/

theorem cstr_of_not_mem (w : List Char) (hw : NUL ∉ w) : cstr w = w := by
  unfold cstr
  induction w with
  | nil => rfl
  | cons c cs ih =>
    have hc : c ≠ NUL := fun h => hw (h ▸ List.mem_cons_self _ _)
    have := ih (fun h => hw (List.mem_cons_of_mem _ h))
    simp only [List.takeWhile_cons, bne_iff_ne, ne_eq, hc, not_false_eq_true, decide_True,
      if_true]
    exact congrArg (List.cons c) this

/-- When the parsing phase does not return, neither does `get_command`. -/
theorem get_command_stdin_no_return (signed_char : Bool) (fuel status : Nat) (stdin : Stdin)
    (out inp : Mem) (r : Input) (b : List Char)
    (hr : get_command_input signed_char COMMAND_BUFFER_SIZE status stdin = some r)
    (hb : r.command_buffer = some b) (hparse : get_command fuel b out inp = none) :
    get_command_stdin signed_char fuel COMMAND_BUFFER_SIZE status stdin out inp = none := by
  simp only [get_command_stdin, hr, hb, hparse]

/-- The byte 255 in the tail of an overlong line: where `char` is signed the loop that discards
the tail stops at that byte, and the rest of the line, here `ls` and its newline, is left on
standard input in front of the following line `pwd`. -/
theorem get_command_input_byte_255 :
    (get_command_input true COMMAND_BUFFER_SIZE COMMAND_INPUT_SUCCEEDED
        { chars := List.replicate 101 'a' ++ Char.ofNat 255 :: "ls\npwd\n".toList,
          error := false }).map (fun r => (r.status, r.stdin.chars))
      = some (COMMAND_TOO_LONG, "ls\npwd\n".toList) ∧
    (get_command_input false COMMAND_BUFFER_SIZE COMMAND_INPUT_SUCCEEDED
        { chars := List.replicate 101 'a' ++ Char.ofNat 255 :: "ls\npwd\n".toList,
          error := false }).map (fun r => (r.status, r.stdin.chars))
      = some (COMMAND_TOO_LONG, "pwd\n".toList) :=
  ⟨by rfl, by rfl⟩

theorem cstr_ne_nil_iff (m : Mem) : cstr m ≠ [] ↔ peek m ≠ NUL := by
  cases m with
  | nil => simp [cstr, peek]
  | cons c cs =>
    by_cases h : c = NUL
    · simp [cstr, peek, List.takeWhile_cons, h]
    · simp [cstr, peek, List.takeWhile_cons, h]

theorem strcmp_zero_iff (name a : List Char) (hname : NUL ∉ name) :
    strcmp_zero name a = true ↔ cstr a = name := by
  unfold strcmp_zero
  rw [cstr_of_not_mem name hname]
  constructor
  · intro h
    exact (beq_iff_eq.1 h).symm
  · intro h
    exact beq_iff_eq.2 h.symm

theorem strcmp_zero_help (a : List Char) :
    strcmp_zero "help".toList a = true ↔ cstr a = "help".toList :=
  strcmp_zero_iff _ a (by decide)

theorem strcmp_zero_exit (a : List Char) :
    strcmp_zero "exit".toList a = true ↔ cstr a = "exit".toList :=
  strcmp_zero_iff _ a (by decide)

/-- C12, the code at the failing input: for the command `nosuchprogram`, when `execvp` fails,
`execute_single_command` reports the cause with `perror` and then leaves through the common
`exit(0)`, so the child terminates with status 0. -/
theorem C12_failed_exec_exits_zero (sys : Sys) (fds : FdTable) :
    (execute_single_command { sys with execvp := false } ["nosuchprogram".toList]
        (Proc.start fds)).trace
      = [.execvp "nosuchprogram".toList ["nosuchprogram".toList], .perror "exec failed",
         .fflush] ∧
    (execute_single_command { sys with execvp := false } ["nosuchprogram".toList]
        (Proc.start fds)).finish = some (.exited 0) :=
  ⟨rfl, rfl⟩

/-- C13, the code at two failing inputs. In the pipe branch, when `dup2` onto the standard
output fails, the process calls `perror`, keeps its old standard output and goes on to `execvp`
the command. When the first `fork` fails, the caller takes the parent branch, waits and returns to
the prompt loop as after a success. -/
theorem C13_failures_not_fatal (fds : FdTable) :
    (execute_command
        { fork1 := 0, pipe := some (3, 4), fork2 := 7, dup2_pipe := false, open_stdout := none,
          dup2_stdout := true, open_stdin := none, dup2_stdin := true, execvp := true }
        ["ls".toList] (some ["wc".toList]) [NUL] [NUL] fds).trace
      = [.fork, .fflush, .pipe, .fork, .close 3, .dup2 4 1, .perror "Trouble redirecting stdout",
         .close 4, .execvp "ls".toList ["ls".toList]] ∧
    (execute_command
        { fork1 := 0, pipe := some (3, 4), fork2 := 7, dup2_pipe := false, open_stdout := none,
          dup2_stdout := true, open_stdin := none, dup2_stdin := true, execvp := true }
        ["ls".toList] (some ["wc".toList]) [NUL] [NUL] fds).finish
      = some (.replaced ["ls".toList]) ∧
    (execute_command
        { fork1 := 0, pipe := some (3, 4), fork2 := 7, dup2_pipe := false, open_stdout := none,
          dup2_stdout := true, open_stdin := none, dup2_stdin := true, execvp := true }
        ["ls".toList] (some ["wc".toList]) [NUL] [NUL] fds).fds STDOUT_FILENO
      = fds STDOUT_FILENO ∧
    (execute_command
        { fork1 := -1, pipe := none, fork2 := 0, dup2_pipe := true, open_stdout := none,
          dup2_stdout := true, open_stdin := none, dup2_stdin := true, execvp := true }
        ["ls".toList] none [NUL] [NUL] fds).trace = [.fork, .fflush, .wait, .fflush] ∧
    (execute_command
        { fork1 := -1, pipe := none, fork2 := 0, dup2_pipe := true, open_stdout := none,
          dup2_stdout := true, open_stdin := none, dup2_stdin := true, execvp := true }
        ["ls".toList] none [NUL] [NUL] fds).finish = some .returned :=
  ⟨rfl, rfl, rfl, rfl, rfl⟩

theorem execute_single_command_exec (sys : Sys) (command : List (List Char)) (p : Proc)
    (hexec : sys.execvp = true) (hhelp : cstr (command.headD []) ≠ "help".toList)
    (hexit : cstr (command.headD []) ≠ "exit".toList) :
    execute_single_command sys command p
      = { p.act [.execvp (command.headD []) command] with finish := some (.replaced command) } := by
  have h1 : ¬ strcmp_zero "help".toList (command.headD []) = true :=
    fun h => hhelp ((strcmp_zero_help _).1 h)
  have h2 : ¬ strcmp_zero "exit".toList (command.headD []) = true :=
    fun h => hexit ((strcmp_zero_exit _).1 h)
  rw [execute_single_command, if_neg h1, if_neg h2, if_pos hexec]

/-- C14.  In the pipe branch, with every system call succeeding, the pipe descriptors `r`, `w`
and the descriptors returned by `open` other than 0 and 1: the process that execs segment 0 has
the write end of the pipe as standard output, the input file as standard input exactly when the
input path is not empty (otherwise the standard input it had), never opens the output path, and
has closed both pipe descriptors; the process that execs segment 1 has the read end as standard
input, the output file as standard output exactly when the output path is not empty, never opens
the input path, and has closed both pipe descriptors. -/
theorem C14_pipe_plumbing (sys : Sys) (command0 command1 : List (List Char)) (out inp : Mem)
    (fds : FdTable) (r w fi fo : Nat)
    (hfork1 : sys.fork1 = 0) (hpipe : sys.pipe = some (r, w)) (hdup : sys.dup2_pipe = true)
    (hin : sys.open_stdin = some fi) (hdin : sys.dup2_stdin = true)
    (hout : sys.open_stdout = some fo) (hdout : sys.dup2_stdout = true)
    (hexec : sys.execvp = true) (hrw : r ≠ w) (hr : 1 < r) (hw : 1 < w) (hfi : 1 < fi)
    (hfo : 1 < fo)
    (hhelp0 : cstr (command0.headD []) ≠ "help".toList)
    (hexit0 : cstr (command0.headD []) ≠ "exit".toList)
    (hhelp1 : cstr (command1.headD []) ≠ "help".toList)
    (hexit1 : cstr (command1.headD []) ≠ "exit".toList) :
    (0 < sys.fork2 →
      (execute_command sys command0 (some command1) out inp fds).finish
        = some (.replaced command0) ∧
      (execute_command sys command0 (some command1) out inp fds).fds STDOUT_FILENO
        = some .pipe_write ∧
      (execute_command sys command0 (some command1) out inp fds).fds STDIN_FILENO
        = (if cstr inp ≠ [] then some (.opened (cstr inp) false) else fds STDIN_FILENO) ∧
      (execute_command sys command0 (some command1) out inp fds).fds r = none ∧
      (execute_command sys command0 (some command1) out inp fds).fds w = none ∧
      ∀ path, Action.open_file path true
        ∉ (execute_command sys command0 (some command1) out inp fds).trace) ∧
    (sys.fork2 = 0 →
      (execute_command sys command0 (some command1) out inp fds).finish
        = some (.replaced command1) ∧
      (execute_command sys command0 (some command1) out inp fds).fds STDIN_FILENO
        = some .pipe_read ∧
      (execute_command sys command0 (some command1) out inp fds).fds STDOUT_FILENO
        = (if cstr out ≠ [] then some (.opened (cstr out) true) else fds STDOUT_FILENO) ∧
      (execute_command sys command0 (some command1) out inp fds).fds r = none ∧
      (execute_command sys command0 (some command1) out inp fds).fds w = none ∧
      ∀ path, Action.open_file path false
        ∉ (execute_command sys command0 (some command1) out inp fds).trace) := by
  have hr0 : r ≠ 0 := by omega
  have hr1 : r ≠ 1 := by omega
  have hw0 : w ≠ 0 := by omega
  have hw1 : w ≠ 1 := by omega
  have hfi0 : fi ≠ 0 := by omega
  have hfo1 : fo ≠ 1 := by omega
  have hfi1 : fi ≠ 1 := by omega
  have hfo0 : fo ≠ 0 := by omega
  constructor
  · intro hf2
    have hn : ¬ sys.fork2 < 0 := by omega
    have hne : sys.fork2 ≠ 0 := by omega
    by_cases hi : peek inp ≠ NUL
    · have hc : cstr inp ≠ [] := (cstr_ne_nil_iff inp).2 hi
      simp only [execute_command, hfork1, hpipe, execute_piped, hn, hne, hdup, hi,
        redirect_stdin, hin, hdin, Proc.next, Proc.act, Proc.with_fds, Proc.start,
        if_true, if_false, ne_eq, not_false_eq_true,
        execute_single_command_exec sys command0 _ hexec hhelp0 hexit0, hc]
      simp [fd_close, fd_dup2, fd_install, STDOUT_FILENO, STDIN_FILENO, hr0, hr1, hw0, hw1,
        hfi0, hfi1, hrw, hrw.symm, Ne.symm hr0, Ne.symm hr1, Ne.symm hw0, Ne.symm hw1,
        Ne.symm hfi0, Ne.symm hfi1]
    · have hc : ¬ cstr inp ≠ [] := fun h => hi ((cstr_ne_nil_iff inp).1 h)
      simp only [execute_command, hfork1, hpipe, execute_piped, hn, hne, hdup, hi,
        Proc.next, Proc.act, Proc.with_fds, Proc.start,
        if_true, if_false, ne_eq, not_false_eq_true,
        execute_single_command_exec sys command0 _ hexec hhelp0 hexit0, hc]
      simp [fd_close, fd_dup2, fd_install, STDOUT_FILENO, STDIN_FILENO, hr0, hr1, hw0, hw1,
        hrw, hrw.symm, Ne.symm hr0, Ne.symm hr1, Ne.symm hw0, Ne.symm hw1]
  · intro hf2
    have hn : ¬ sys.fork2 < 0 := by omega
    have hne : ¬ sys.fork2 ≠ 0 := by omega
    by_cases ho : peek out ≠ NUL
    · have hc : cstr out ≠ [] := (cstr_ne_nil_iff out).2 ho
      simp only [execute_command, hfork1, hpipe, execute_piped, hn, hne, hdup, ho,
        redirect_stdout, hout, hdout, Proc.next, Proc.act, Proc.with_fds, Proc.start,
        if_true, if_false, ne_eq, not_false_eq_true,
        execute_single_command_exec sys command1 _ hexec hhelp1 hexit1, hc]
      simp [fd_close, fd_dup2, fd_install, STDOUT_FILENO, STDIN_FILENO, hr0, hr1, hw0, hw1,
        hfo0, hfo1, hrw, hrw.symm, Ne.symm hr0, Ne.symm hr1, Ne.symm hw0, Ne.symm hw1,
        Ne.symm hfo0, Ne.symm hfo1]
    · have hc : ¬ cstr out ≠ [] := fun h => ho ((cstr_ne_nil_iff out).1 h)
      simp only [execute_command, hfork1, hpipe, execute_piped, hn, hne, hdup, ho,
        Proc.next, Proc.act, Proc.with_fds, Proc.start,
        if_true, if_false, ne_eq, not_false_eq_true,
        execute_single_command_exec sys command1 _ hexec hhelp1 hexit1, hc]
      simp [fd_close, fd_dup2, fd_install, STDOUT_FILENO, STDIN_FILENO, hr0, hr1, hw0, hw1,
        hrw, hrw.symm, Ne.symm hr0, Ne.symm hr1, Ne.symm hw0, Ne.symm hw1]

/-- C14, witness: `gen < in.txt | sort > out.txt`, seen from the process that execs `gen`
(the second `fork` returns 7) and from the process that execs `sort` (it returns 0). -/
theorem C14_pipe_plumbing_witness :
    ((execute_command
        { fork1 := 0, pipe := some (3, 4), fork2 := 7, dup2_pipe := true, open_stdout := some 3,
          dup2_stdout := true, open_stdin := some 3, dup2_stdin := true, execvp := true }
        ["gen".toList] (some ["sort".toList]) "out.txt".toList "in.txt".toList
        (fun fd => if fd < 3 then some (.inherited fd) else none)).fds STDOUT_FILENO
      = some .pipe_write) ∧
    ((execute_command
        { fork1 := 0, pipe := some (3, 4), fork2 := 0, dup2_pipe := true, open_stdout := some 3,
          dup2_stdout := true, open_stdin := some 3, dup2_stdin := true, execvp := true }
        ["gen".toList] (some ["sort".toList]) "out.txt".toList "in.txt".toList
        (fun fd => if fd < 3 then some (.inherited fd) else none)).fds STDIN_FILENO
      = some .pipe_read) :=
  ⟨((C14_pipe_plumbing
      { fork1 := 0, pipe := some (3, 4), fork2 := 7, dup2_pipe := true, open_stdout := some 3,
        dup2_stdout := true, open_stdin := some 3, dup2_stdin := true, execvp := true }
      ["gen".toList] ["sort".toList] "out.txt".toList "in.txt".toList
      (fun fd => if fd < 3 then some (.inherited fd) else none) 3 4 3 3 rfl rfl rfl rfl rfl rfl
      rfl rfl (by decide) (by decide) (by decide) (by decide) (by decide) (by decide)
      (by decide) (by decide) (by decide)).1 (by decide)).2.1,
   ((C14_pipe_plumbing
      { fork1 := 0, pipe := some (3, 4), fork2 := 0, dup2_pipe := true, open_stdout := some 3,
        dup2_stdout := true, open_stdin := some 3, dup2_stdin := true, execvp := true }
      ["gen".toList] ["sort".toList] "out.txt".toList "in.txt".toList
      (fun fd => if fd < 3 then some (.inherited fd) else none) 3 4 3 3 rfl rfl rfl rfl rfl rfl
      rfl rfl (by decide) (by decide) (by decide) (by decide) (by decide) (by decide)
      (by decide) (by decide) (by decide)).2 rfl).2.1⟩

/-- C15.  In the process in which the first `fork` does not return 0 (the interpreter),
`execute_command` waits for the child and then terminates the process, with `exit(0)`, if and only
if the first string of segment 0 is exactly `exit`; for every other first string it returns to the
prompt loop. -/
theorem C15_parent_exits_iff_exit (sys : Sys) (command0 : List (List Char))
    (command1 : Option (List (List Char))) (out inp : Mem) (fds : FdTable)
    (hfork : sys.fork1 ≠ 0) :
    ((execute_command sys command0 command1 out inp fds).finish = some (.exited 0)
      ↔ cstr (command0.headD []) = "exit".toList) ∧
    (cstr (command0.headD []) ≠ "exit".toList →
      (execute_command sys command0 command1 out inp fds).finish = some .returned) ∧
    ((∃ status, (execute_command sys command0 command1 out inp fds).finish
        = some (.exited status)) ↔ cstr (command0.headD []) = "exit".toList) ∧
    [Action.fork, Action.fflush, Action.wait]
      <+: (execute_command sys command0 command1 out inp fds).trace := by
  by_cases h : strcmp_zero "exit".toList (command0.headD []) = true
  · have hc := (strcmp_zero_exit _).1 h
    simp only [execute_command, hfork, h, if_true, if_false, Proc.exit_with, Proc.act,
      Proc.start, hc]
    refine ⟨by simp, by simp, by simp, ?_⟩
    exact ⟨[], by simp⟩
  · have hc : ¬ cstr (command0.headD []) = "exit".toList := fun hc => h ((strcmp_zero_exit _).2 hc)
    simp only [execute_command, hfork, h, if_false, Proc.act, Proc.start, hc]
    refine ⟨by simp, by simp, by simp, ?_⟩
    exact ⟨[.fflush], by simp⟩

/-- C15, witness: the command `exit` in the parent, whose `fork` returned 7. -/
theorem C15_parent_exits_iff_exit_witness :
    (execute_command
        { fork1 := 7, pipe := none, fork2 := 0, dup2_pipe := true, open_stdout := none,
          dup2_stdout := true, open_stdin := none, dup2_stdin := true, execvp := true }
        ["exit".toList] none [NUL] [NUL] (fun _ => none)).finish = some (.exited 0) :=
  ((C15_parent_exits_iff_exit
      { fork1 := 7, pipe := none, fork2 := 0, dup2_pipe := true, open_stdout := none,
        dup2_stdout := true, open_stdin := none, dup2_stdin := true, execvp := true }
      ["exit".toList] none [NUL] [NUL] (fun _ => none) (by decide)).1).2 (by decide)

/-- No call of `execvp` among the calls of a process. -/
theorem no_exec_act (p : Proc) (calls : List Action)
    (hp : ∀ file argv, Action.execvp file argv ∉ p.trace)
    (hc : ∀ file argv, Action.execvp file argv ∉ calls) :
    ∀ file argv, Action.execvp file argv ∉ (p.act calls).trace := by
  intro file argv h
  rcases List.mem_append.1 h with h | h
  · exact hp file argv h
  · exact hc file argv h

theorem no_exec_redirect_stdout (sys : Sys) (out : Mem) (p : Proc)
    (hp : ∀ file argv, Action.execvp file argv ∉ p.trace) :
    ∀ file argv, Action.execvp file argv ∉ (redirect_stdout sys out p).trace := by
  unfold redirect_stdout
  cases sys.open_stdout with
  | none => exact no_exec_act p _ hp (by simp)
  | some fd =>
    by_cases hd : sys.dup2_stdout = true
    · simp only [hd, if_true]
      exact no_exec_act _ _ (no_exec_act p _ hp (by simp)) (by simp)
    · simp only [hd, if_false]
      exact no_exec_act _ _ (no_exec_act p _ hp (by simp)) (by simp)

theorem no_exec_redirect_stdin (sys : Sys) (inp : Mem) (p : Proc)
    (hp : ∀ file argv, Action.execvp file argv ∉ p.trace) :
    ∀ file argv, Action.execvp file argv ∉ (redirect_stdin sys inp p).trace := by
  unfold redirect_stdin
  cases sys.open_stdin with
  | none => exact no_exec_act p _ hp (by simp)
  | some fd =>
    by_cases hd : sys.dup2_stdin = true
    · simp only [hd, if_true]
      exact no_exec_act _ _ (no_exec_act p _ hp (by simp)) (by simp)
    · simp only [hd, if_false]
      exact no_exec_act _ _ (no_exec_act p _ hp (by simp)) (by simp)

theorem no_exec_next (p : Proc) (k : Proc → Proc)
    (hp : ∀ file argv, Action.execvp file argv ∉ p.trace)
    (hk : ∀ q : Proc, (∀ file argv, Action.execvp file argv ∉ q.trace) →
      ∀ file argv, Action.execvp file argv ∉ (k q).trace) :
    ∀ file argv, Action.execvp file argv ∉ (p.next k).trace := by
  unfold Proc.next
  cases p.finish with
  | some f => exact hp
  | none => exact hk p hp

theorem execute_single_command_help (sys : Sys) (command : List (List Char)) (p : Proc)
    (hhelp : cstr (command.headD []) = "help".toList) :
    execute_single_command sys command p = (p.act [.display_help, .fflush]).exit_with 0 := by
  rw [execute_single_command, if_pos ((strcmp_zero_help _).2 hhelp)]

/-- The calls of `execute_single_command` include `execvp` exactly when the first string is
neither `help` nor `exit`. -/
theorem execvp_iff (sys : Sys) (command : List (List Char)) (fds : FdTable) :
    (∃ file argv, Action.execvp file argv
        ∈ (execute_single_command sys command (Proc.start fds)).trace)
      ↔ cstr (command.headD []) ≠ "help".toList ∧ cstr (command.headD []) ≠ "exit".toList := by
  by_cases h1 : strcmp_zero "help".toList (command.headD []) = true
  · have c1 := (strcmp_zero_help _).1 h1
    rw [execute_single_command, if_pos h1]
    constructor
    · rintro ⟨file, argv, h⟩
      simp [Proc.act, Proc.exit_with, Proc.start] at h
    · rintro ⟨hc, _⟩
      exact absurd c1 hc
  · have c1 : ¬ cstr (command.headD []) = "help".toList :=
      fun c => h1 ((strcmp_zero_help _).2 c)
    by_cases h2 : strcmp_zero "exit".toList (command.headD []) = true
    · have c2 := (strcmp_zero_exit _).1 h2
      rw [execute_single_command, if_neg h1, if_pos h2]
      constructor
      · rintro ⟨file, argv, h⟩
        simp [Proc.exit_with, Proc.start] at h
      · rintro ⟨_, hc⟩
        exact absurd c2 hc
    · have c2 : ¬ cstr (command.headD []) = "exit".toList :=
        fun c => h2 ((strcmp_zero_exit _).2 c)
      refine ⟨fun _ => ⟨c1, c2⟩, fun _ => ⟨command.headD [], command, ?_⟩⟩
      rw [execute_single_command, if_neg h1, if_neg h2]
      by_cases h3 : sys.execvp = true
      · rw [if_pos h3]
        simp [Proc.act, Proc.start]
      · rw [if_neg h3]
        simp [Proc.act, Proc.exit_with, Proc.start]

theorem mem_trace_act (p : Proc) (calls : List Action) (a : Action) (h : a ∈ p.trace) :
    a ∈ (p.act calls).trace :=
  List.mem_append_left _ h

theorem mem_trace_redirect_stdout (sys : Sys) (out : Mem) (p : Proc) (a : Action)
    (h : a ∈ p.trace) : a ∈ (redirect_stdout sys out p).trace := by
  unfold redirect_stdout
  cases sys.open_stdout with
  | none => exact mem_trace_act p _ a h
  | some fd =>
    by_cases hd : sys.dup2_stdout = true
    · simp only [hd, if_true]
      exact mem_trace_act _ _ a (mem_trace_act p _ a h)
    · simp only [hd, if_false]
      exact mem_trace_act _ _ a (mem_trace_act p _ a h)

theorem mem_trace_redirect_stdin (sys : Sys) (inp : Mem) (p : Proc) (a : Action)
    (h : a ∈ p.trace) : a ∈ (redirect_stdin sys inp p).trace := by
  unfold redirect_stdin
  cases sys.open_stdin with
  | none => exact mem_trace_act p _ a h
  | some fd =>
    by_cases hd : sys.dup2_stdin = true
    · simp only [hd, if_true]
      exact mem_trace_act _ _ a (mem_trace_act p _ a h)
    · simp only [hd, if_false]
      exact mem_trace_act _ _ a (mem_trace_act p _ a h)

theorem mem_trace_next (p : Proc) (k : Proc → Proc) (a : Action) (h : a ∈ p.trace)
    (hk : ∀ q : Proc, a ∈ q.trace → a ∈ (k q).trace) : a ∈ (p.next k).trace := by
  unfold Proc.next
  cases p.finish with
  | some f => exact h
  | none => exact hk p h

/-- C16, as amended.  For every command whose first string is exactly `help`, no program is run
for it: `execute_single_command` prints the help text, flushes, makes no call of `execvp` and
terminates with `exit(0)`; `execute_command` forks a child for it as for every command, and,
whatever the outcomes of the system calls, no process running `execute_command` for it without a
pipe calls `execvp`; and `execute_single_command` calls `execvp` only, and always, when the first
string is neither `help` nor `exit`. -/
theorem C16_help_without_exec (sys : Sys) (command : List (List Char)) (out inp : Mem)
    (fds : FdTable) (hhelp : cstr (command.headD []) = "help".toList) :
    (execute_single_command sys command (Proc.start fds)).trace = [.display_help, .fflush] ∧
    (execute_single_command sys command (Proc.start fds)).finish = some (.exited 0) ∧
    Action.fork ∈ (execute_command sys command none out inp fds).trace ∧
    (∀ file argv, Action.execvp file argv
      ∉ (execute_command sys command none out inp fds).trace) ∧
    (∀ (sys2 : Sys) (command2 : List (List Char)) (fds2 : FdTable),
      (∃ file argv, Action.execvp file argv
          ∈ (execute_single_command sys2 command2 (Proc.start fds2)).trace)
        ↔ cstr (command2.headD []) ≠ "help".toList
          ∧ cstr (command2.headD []) ≠ "exit".toList) := by
  refine ⟨?_, ?_, ?_, ?_, fun sys2 command2 fds2 => execvp_iff sys2 command2 fds2⟩
  · rw [execute_single_command_help sys command _ hhelp]
    rfl
  · rw [execute_single_command_help sys command _ hhelp]
    rfl
  · have hstart : Action.fork ∈ ((Proc.start fds).act [.fork]).trace := by
      simp [Proc.start, Proc.act]
    unfold execute_command
    by_cases hf : sys.fork1 = 0
    · simp only [hf, if_true]
      apply mem_trace_next
      · apply mem_trace_next
        · by_cases ho : peek out ≠ NUL
          · simp only [ho, if_true, ne_eq, not_false_eq_true]
            exact mem_trace_redirect_stdout sys out _ _ (mem_trace_act _ _ _ hstart)
          · simp only [ho, if_false]
            exact mem_trace_act _ _ _ hstart
        · intro q hq
          by_cases hi : peek inp ≠ NUL
          · simp only [hi, if_true, ne_eq, not_false_eq_true]
            exact mem_trace_redirect_stdin sys inp q _ hq
          · simp only [hi, if_false]
            exact hq
      · intro q hq
        rw [execute_single_command_help sys command q hhelp]
        exact mem_trace_act q _ _ hq
    · simp only [hf, if_false]
      by_cases he : strcmp_zero "exit".toList (command.headD []) = true
      · simp only [he, if_true]
        exact mem_trace_act _ _ _ hstart
      · simp only [he, if_false]
        exact mem_trace_act _ _ _ (mem_trace_act _ _ _ hstart)
  · have hstart : ∀ file argv, Action.execvp file argv ∉ ((Proc.start fds).act [.fork]).trace := by
      simp [Proc.start, Proc.act]
    have hsingle : ∀ q : Proc, (∀ file argv, Action.execvp file argv ∉ q.trace) →
        ∀ file argv, Action.execvp file argv ∉ (execute_single_command sys command q).trace := by
      intro q hq
      rw [execute_single_command_help sys command q hhelp]
      exact no_exec_act q _ hq (by simp)
    unfold execute_command
    by_cases hf : sys.fork1 = 0
    · simp only [hf, if_true]
      apply no_exec_next _ _ _ hsingle
      apply no_exec_next
      · by_cases ho : peek out ≠ NUL
        · simp only [ho, if_true, ne_eq, not_false_eq_true]
          exact no_exec_redirect_stdout sys out _ (no_exec_act _ _ hstart (by simp))
        · simp only [ho, if_false]
          exact no_exec_act _ _ hstart (by simp)
      · intro q hq
        by_cases hi : peek inp ≠ NUL
        · simp only [hi, if_true, ne_eq, not_false_eq_true]
          exact no_exec_redirect_stdin sys inp q hq
        · simp only [hi, if_false]
          exact hq
    · simp only [hf, if_false]
      by_cases he : strcmp_zero "exit".toList (command.headD []) = true
      · simp only [he, if_true]
        exact no_exec_act _ _ hstart (by simp)
      · simp only [he, if_false]
        exact no_exec_act _ _ (no_exec_act _ _ hstart (by simp)) (by simp)

/-- C16, witness: the command `help`. -/
theorem C16_help_without_exec_witness :
    (execute_single_command
        { fork1 := 0, pipe := none, fork2 := 0, dup2_pipe := true, open_stdout := none,
          dup2_stdout := true, open_stdin := none, dup2_stdin := true, execvp := true }
        ["help".toList] (Proc.start (fun _ => none))).finish = some (.exited 0) :=
  (C16_help_without_exec
      { fork1 := 0, pipe := none, fork2 := 0, dup2_pipe := true, open_stdout := none,
        dup2_stdout := true, open_stdin := none, dup2_stdin := true, execvp := true }
      ["help".toList] [NUL] [NUL] (fun _ => none) (by decide)).2.1

/-- C16, counterexample to the claim as stated: for the command `help` the launcher does spawn a
process. The caller of `execute_command` forks, and the child it has created is the process that
prints the help text and exits. -/
theorem C16_counterexample :
    (execute_command
        { fork1 := 7, pipe := none, fork2 := 0, dup2_pipe := true, open_stdout := none,
          dup2_stdout := true, open_stdin := none, dup2_stdin := true, execvp := true }
        ["help".toList] none [NUL] [NUL] (fun _ => none)).trace
      = [.fork, .fflush, .wait, .fflush] ∧
    (execute_command
        { fork1 := 0, pipe := none, fork2 := 0, dup2_pipe := true, open_stdout := none,
          dup2_stdout := true, open_stdin := none, dup2_stdin := true, execvp := true }
        ["help".toList] none [NUL] [NUL] (fun _ => none)).trace
      = [.fork, .fflush, .display_help, .fflush] ∧
    (execute_command
        { fork1 := 0, pipe := none, fork2 := 0, dup2_pipe := true, open_stdout := none,
          dup2_stdout := true, open_stdin := none, dup2_stdin := true, execvp := true }
        ["help".toList] none [NUL] [NUL] (fun _ => none)).finish = some (.exited 0) :=
  ⟨rfl, rfl, rfl⟩

/-! ## Termination of the redirection scan -/

theorem count_args_cmd_out_extra (fuel : Nat) (out inp : Mem) :
    count_args fuel "cmd > out extra".toList out inp 0 = none := by
  unfold count_args
  cases h : count_loop fuel (skip_spaces ("cmd > out extra".toList.drop 0)) 0 with
  | none => rfl
  | some r =>
    have h16 : count_loop 16 (skip_spaces ("cmd > out extra".toList.drop 0)) 0
        = some (0, "> out extra".toList) := by decide
    have := count_loop_det _ _ _ _ _ _ h h16
    subst this
    simp only [set_redirection_out_extra]

/-- C17, the code at the failing input `cmd > out extra`, a line of 15 characters: whatever the
number of rounds allowed, the scan of `set_redirection` does not return, and so neither do
`count_args` and `get_command`; a round of the loop at the `e` of `extra` leaves the cursor and
both arrays as they were, so the loop makes no progress there. -/
theorem C17_scan_does_not_terminate (fuel : Nat) (out inp : Mem) :
    "cmd > out extra".toList.length ≤ MAX_COMMAND_SIZE ∧
    set_redirection fuel "> out extra".toList out inp = none ∧
    count_args fuel "cmd > out extra".toList out inp 0 = none ∧
    get_command fuel "cmd > out extra".toList out inp = none ∧
    set_redirection (fuel + 1) "extra".toList out inp
      = set_redirection fuel "extra".toList out inp := by
  refine ⟨by decide, set_redirection_out_extra fuel out inp,
    count_args_cmd_out_extra fuel out inp, ?_, rfl⟩
  simp only [get_command, count_args_cmd_out_extra]

/-! ## The stores into the argument blocks -/

theorem parse_args_nul (n : Nat) :
    ∀ (s : List Char), ∀ a ∈ parse_args n s, a.nul = a.chars.length + 1 := by
  induction n with
  | zero => intro s a ha; simp [parse_args] at ha
  | succ n ih =>
    intro s a ha
    simp only [parse_args, List.mem_cons] at ha
    rcases ha with rfl | ha
    · rfl
    · exact ih _ a ha

/-- C19, the code at the failing input: for the line `ls` and a block that `malloc` returned
full of `x`, `parse_args` stores `l` and `s` at the indices 0 and 1 and the terminator at index 3,
so index 2 keeps the old `x` and the C string in the block is `lsx`. -/
theorem C19_terminator_one_too_far :
    (parse_args 1 "ls".toList).map Arg.stores = [[(0, 'l'), (1, 's'), (3, NUL)]] ∧
    (parse_args 1 "ls".toList).map
        (fun a => apply_stores (List.replicate ARG_SIZE 'x') a.stores)
      = [['l', 's', 'x', NUL] ++ List.replicate 16 'x'] ∧
    (parse_args 1 "ls".toList).map
        (fun a => cstr (apply_stores (List.replicate ARG_SIZE 'x') a.stores))
      = ["lsx".toList] := by
  decide

/-- C20.  Every block that `parse_args` fills receives the characters of the word at the
indices from 0 on and the terminator one index after the end of the word, without a check against
the 20 bytes allocated: all its stores are at indices below 20 if and only if the word has at most
18 characters; and for a line of 19 characters, which `get_command` accepts, a store is at index
20. -/
theorem C20_stores_within_block (n : Nat) (s : List Char) (a : Arg)
    (ha : a ∈ parse_args n s) :
    ((∀ st ∈ a.stores, st.1 < ARG_SIZE) ↔ a.chars.length ≤ 18) ∧
    ∃ r, (List.replicate 19 'a').length ≤ MAX_COMMAND_SIZE ∧
      get_command 20 (List.replicate 19 'a') [] [] = some r ∧
      ∃ b ∈ r.first, ∃ st ∈ b.stores, ARG_SIZE ≤ st.1 := by
  have hn := parse_args_nul n s a ha
  constructor
  · constructor
    · intro h
      have := h (a.nul, NUL) (by simp [Arg.stores])
      simp only [ARG_SIZE] at this
      omega
    · intro h st hst
      simp only [Arg.stores, List.mem_append, List.mem_singleton] at hst
      rcases hst with hst | rfl
      · have := indexed_from_bound a.chars 0 st hst
        simp only [ARG_SIZE]
        omega
      · simp only [ARG_SIZE]
        omega
  · exact ⟨_, by decide, rfl, _, List.mem_cons_self _ _, (20, NUL), by decide, by decide⟩

/-- C20, witness: the block of the word `ls`. -/
theorem C20_stores_within_block_witness :
    (∀ st ∈ ({ chars := "ls".toList, nul := 3 } : Arg).stores, st.1 < ARG_SIZE)
      ↔ ({ chars := "ls".toList, nul := 3 } : Arg).chars.length ≤ 18 :=
  (C20_stores_within_block 1 "ls".toList { chars := "ls".toList, nul := 3 } (by decide)).1

/-! ## The stores into the location arrays -/

theorem cstr_cons (c : Char) (s : List Char) :
    cstr (c :: s) = if c = NUL then [] else c :: cstr s := by
  by_cases h : c = NUL
  · simp [cstr, List.takeWhile_cons, h]
  · simp [cstr, List.takeWhile_cons, h]

theorem length_cstr_cons_le (c : Char) (s : List Char) :
    (cstr (c :: s)).length ≤ (cstr s).length + 1 := by
  rw [cstr_cons]
  by_cases h : c = NUL
  · simp [h]
  · simp [h]

theorem length_cstr_skip_spaces (s : List Char) :
    (cstr (skip_spaces s)).length ≤ (cstr s).length := by
  induction s with
  | nil => simp [skip_spaces]
  | cons c cs ih =>
    by_cases h : c = ' '
    · subst h
      have : cstr (' ' :: cs) = ' ' :: cstr cs := by
        rw [cstr_cons, if_neg (by decide)]
      simp only [skip_spaces, if_true, this, List.length_cons]
      omega
    · simp [skip_spaces, h]

/-- The tail of a cursor that is not at the terminator. -/
theorem length_cstr_tail (s : List Char) (h : peek s ≠ NUL) :
    (cstr s.tail).length + 1 = (cstr s).length := by
  cases s with
  | nil => exact absurd rfl h
  | cons c cs =>
    simp only [peek_cons] at h
    simp [cstr_cons, h]

theorem copy_location_stores_bound (s : List Char) :
    ∀ (k : Nat), ∀ st ∈ copy_location_stores s k, st.1 < k + (cstr s).length := by
  induction s with
  | nil => intro k st h; simp [copy_location_stores] at h
  | cons c cs ih =>
    intro k st h
    by_cases hc : c ≠ ' ' ∧ c ≠ NUL
    · rw [copy_location_stores, if_pos hc, List.mem_cons] at h
      have hl : (cstr (c :: cs)).length = (cstr cs).length + 1 := by
        rw [cstr_cons, if_neg hc.2, List.length_cons]
      rcases h with rfl | h
      · rw [hl]
        simp
      · have := ih (k + 1) st h
        omega
    · rw [copy_location_stores, if_neg hc] at h
      simp at h

theorem copy_location_bound (s : List Char) :
    ∀ (location : Mem) (k : Nat),
      (copy_location s location k).2.2 + (cstr (copy_location s location k).1).length
        ≤ k + (cstr s).length := by
  induction s with
  | nil => intro location k; simp [copy_location]
  | cons c cs ih =>
    intro location k
    by_cases hc : c ≠ ' ' ∧ c ≠ NUL
    · rw [copy_location, if_pos hc]
      have hl : (cstr (c :: cs)).length = (cstr cs).length + 1 := by
        rw [cstr_cons, if_neg hc.2, List.length_cons]
      have := ih (location.set k c) (k + 1)
      omega
    · rw [copy_location, if_neg hc]

theorem count_loop_length_cstr (fuel : Nat) :
    ∀ (s : List Char) (n : Nat) (r : Nat × List Char),
      count_loop fuel s n = some r → (cstr r.2).length ≤ (cstr s).length := by
  induction fuel with
  | zero => intro s n r h; simp [count_loop] at h
  | succ fuel ih =>
    intro s n r h
    rw [count_loop] at h
    by_cases hg : is_stop (peek s) = false
    · rw [if_pos hg] at h
      have hsk := length_cstr_skip_spaces s
      by_cases h1 : peek s = ' '
      · rw [if_pos h1] at h
        dsimp only at h
        by_cases h2 : is_stop (peek (skip_spaces s)) = false
        · rw [if_pos h2] at h
          exact Nat.le_trans (ih _ _ _ h) hsk
        · rw [if_neg h2] at h
          exact Nat.le_trans (ih _ _ _ h) hsk
      · rw [if_neg h1] at h
        have hn : peek s ≠ NUL := by
          intro hn
          rw [hn] at hg
          exact absurd hg (by decide)
        have := length_cstr_tail s hn
        have := ih _ _ _ h
        omega
    · rw [if_neg hg] at h
      simp only [Option.some.injEq] at h
      subst h
      exact Nat.le_refl _

/-- Every store of the redirection scan from a cursor with at most `MAX_COMMAND_SIZE`
characters in front of the terminator is at an index below `LOCATION_SIZE`. -/
theorem set_redirection_stores_bound (fuel : Nat) :
    ∀ (s : List Char) (out inp : Mem), (cstr s).length ≤ MAX_COMMAND_SIZE →
      ∀ st ∈ set_redirection_stores fuel s out inp, st.1 < LOCATION_SIZE := by
  induction fuel with
  | zero => intro s out inp _ st h; simp [set_redirection_stores] at h
  | succ fuel ih =>
    intro s out inp hs st h
    rw [set_redirection_stores] at h
    by_cases hg : peek s ≠ NUL ∧ peek s ≠ '|'
    · rw [if_pos hg] at h
      dsimp only at h
      have hsk := length_cstr_skip_spaces s
      have hop : ∀ (c : Char) (location : Mem), c ≠ NUL → peek (skip_spaces s) = c →
          (∀ st ∈ copy_location_stores (skip_spaces (skip_spaces s).tail) 0,
            st.1 < LOCATION_SIZE) ∧
          (copy_location (skip_spaces (skip_spaces s).tail) location 0).2.2 < LOCATION_SIZE ∧
          (cstr (copy_location (skip_spaces (skip_spaces s).tail) location 0).1).length
            ≤ MAX_COMMAND_SIZE := by
        intro c location hc hpk
        have ht := length_cstr_tail (skip_spaces s) (by rw [hpk]; exact hc)
        have hs2 := length_cstr_skip_spaces (skip_spaces s).tail
        have hb := copy_location_bound (skip_spaces (skip_spaces s).tail) location 0
        simp only [MAX_COMMAND_SIZE, COMMAND_BUFFER_SIZE, LOCATION_SIZE] at hs ⊢
        refine ⟨?_, by omega, by omega⟩
        intro st hst
        have := copy_location_stores_bound _ 0 st hst
        omega
      by_cases h1 : peek (skip_spaces s) = '>'
      · rw [if_pos h1] at h
        obtain ⟨ha, hb, hc⟩ := hop '>' out (by decide) h1
        rcases List.mem_append.1 h with h | h
        · exact ha st h
        · rcases List.mem_cons.1 h with rfl | h
          · exact hb
          · exact ih _ _ _ hc st h
      · rw [if_neg h1] at h
        by_cases h2 : peek (skip_spaces s) = '<'
        · rw [if_pos h2] at h
          obtain ⟨ha, hb, hc⟩ := hop '<' inp (by decide) h2
          rcases List.mem_append.1 h with h | h
          · exact ha st h
          · rcases List.mem_cons.1 h with rfl | h
            · exact hb
            · exact ih _ _ _ hc st h
        · rw [if_neg h2] at h
          exact ih _ _ _ (Nat.le_trans hsk hs) st h
    · rw [if_neg hg] at h
      simp at h

theorem count_args_stores_bound (fuel : Nat) (buf : List Char) (out inp : Mem) (index : Nat)
    (h : (cstr (buf.drop index)).length ≤ MAX_COMMAND_SIZE) :
    ∀ st ∈ count_args_stores fuel buf out inp index, st.1 < LOCATION_SIZE := by
  intro st hst
  unfold count_args_stores at hst
  cases hc : count_loop fuel (skip_spaces (buf.drop index)) 0 with
  | none => simp [hc] at hst
  | some r =>
    rw [hc] at hst
    have h1 := count_loop_length_cstr fuel _ _ _ hc
    have h2 := length_cstr_skip_spaces (buf.drop index)
    exact set_redirection_stores_bound fuel r.2 out inp (by omega) st hst

/-- Behind a pipe that `is_pipe` has found, the C string is shorter than the whole. -/
theorem length_cstr_drop_pipe (s : List Char) :
    ∀ i, is_pipe_loop s i ≠ 0 →
      (cstr (s.drop (is_pipe_loop s i - i + 1))).length ≤ (cstr s).length := by
  induction s with
  | nil => intro i h; simp [is_pipe_loop] at h
  | cons c cs ih =>
    intro i h
    rw [is_pipe_loop] at h ⊢
    by_cases h0 : c = NUL
    · rw [if_pos h0] at h
      exact absurd rfl h
    · rw [if_neg h0] at h ⊢
      have hl : (cstr (c :: cs)).length = (cstr cs).length + 1 := by
        rw [cstr_cons, if_neg h0, List.length_cons]
      by_cases h1 : c = '|'
      · rw [if_pos h1]
        simp only [Nat.sub_self, Nat.zero_add, List.drop_succ_cons, List.drop_zero]
        omega
      · rw [if_neg h1] at h ⊢
        have hi := ih (i + 1) h
        have hge : i + 1 ≤ is_pipe_loop cs (i + 1) := by
          have := is_pipe_loop_eq cs (i + 1)
          by_cases hm : '|' ∈ cstr cs
          · rw [if_pos hm] at this
            omega
          · rw [if_neg hm] at this
            exact absurd this h
        have he : is_pipe_loop cs (i + 1) - i + 1 = (is_pipe_loop cs (i + 1) - (i + 1) + 1) + 1 := by
          omega
        rw [he, List.drop_succ_cons]
        omega

/-- The buffer that the input phase hands to the parser holds at most `MAX_COMMAND_SIZE`
characters in front of its terminator. -/
theorem fgets_loop_length (n : Nat) : ∀ s : List Char, (fgets_loop n s).1.length ≤ n := by
  induction n with
  | zero => intro s; simp [fgets_loop]
  | succ n ih =>
    intro s
    cases s with
    | nil => simp [fgets_loop]
    | cons c cs =>
      by_cases h : c = '\n'
      · simp [fgets_loop, h]
      · have := ih cs
        simp [fgets_loop, h]
        omega

theorem length_cstr_le (s : List Char) : (cstr s).length ≤ s.length := by
  unfold cstr
  exact (List.takeWhile_sublist _).length_le

theorem length_cstr_set_terminator (s : List Char) (k : Nat) (hk : k < (cstr s).length) :
    (cstr (s.set k NUL)).length = k := by
  induction s generalizing k with
  | nil => simp [cstr] at hk
  | cons c cs ih =>
    by_cases h0 : c = NUL
    · simp [cstr_cons, h0] at hk
    · cases k with
      | zero => simp [cstr_cons]
      | succ k =>
        have hl : (cstr (c :: cs)).length = (cstr cs).length + 1 := by
          rw [cstr_cons, if_neg h0, List.length_cons]
        rw [List.set_cons_succ, cstr_cons, if_neg h0, List.length_cons, ih k (by omega)]

theorem get_command_stores_bound (fuel : Nat) (buf : List Char) (out inp : Mem)
    (hbuf : (cstr buf).length ≤ MAX_COMMAND_SIZE) :
    ∀ st ∈ get_command_stores fuel buf out inp, st.1 < LOCATION_SIZE := by
  intro st hst
  unfold get_command_stores at hst
  rcases List.mem_append.1 hst with h | h
  · exact count_args_stores_bound fuel buf out inp 0 (by simpa using hbuf) st h
  · by_cases hp : is_pipe buf ≠ 0
    · rw [if_pos hp] at h
      cases hc : count_args fuel buf out inp 0 with
      | none => simp [hc] at h
      | some r =>
        rw [hc] at h
        have hd := length_cstr_drop_pipe buf 0 hp
        simp only [Nat.sub_zero] at hd
        exact count_args_stores_bound fuel buf r.2.1 r.2.2 (is_pipe buf + 1)
          (Nat.le_trans hd hbuf) st h
    · rw [if_neg hp] at h
      simp at h

theorem get_command_input_length (signed_char : Bool) (status : Nat) (stdin : Stdin) (r : Input)
    (b : List Char) (h : get_command_input signed_char COMMAND_BUFFER_SIZE status stdin = some r)
    (hb : r.command_buffer = some b) : (cstr b).length ≤ MAX_COMMAND_SIZE := by
  have h1 : (fgets_loop (COMMAND_BUFFER_SIZE - 1) stdin.chars).1.length ≤ 101 :=
    fgets_loop_length (COMMAND_BUFFER_SIZE - 1) stdin.chars
  have h2 := length_cstr_le (fgets_loop (COMMAND_BUFFER_SIZE - 1) stdin.chars).1
  have key : ∀ k, k = (cstr (fgets_loop (COMMAND_BUFFER_SIZE - 1) stdin.chars).1).length →
      k ≠ 0 →
      (cstr ((fgets_loop (COMMAND_BUFFER_SIZE - 1) stdin.chars).1.set (k - 1) NUL)).length
        ≤ MAX_COMMAND_SIZE := by
    intro k hk hk0
    rw [length_cstr_set_terminator _ (k - 1) (by omega)]
    show k - 1 ≤ 100
    omega
  unfold get_command_input at h
  dsimp only at h
  split at h
  · split at h
    · simp only [Option.some.injEq] at h
      subst h
      simp at hb
    · simp only [Option.some.injEq] at h
      subst h
      simp at hb
  · split at h
    · simp at h
    · rename_i hk0
      split at h
      · split at h
        · simp at h
        · simp only [Option.some.injEq] at h
          subst h
          simp only [Option.some.injEq] at hb
          subst hb
          exact key _ rfl hk0
      · simp only [Option.some.injEq] at h
        subst h
        simp only [Option.some.injEq] at hb
        subst hb
        exact key _ rfl hk0

/-- C18.  For every buffer with at most `MAX_COMMAND_SIZE` characters in front of its terminator,
every store that `set_redirection` makes into `outputLocation` or `inputLocation` during
`get_command`, the terminators included, is at an index below 100, so every captured path has at
most 99 characters; and every buffer that the input phase of `get_command` hands to the parser is
such a buffer. -/
theorem C18_location_stores_in_bounds (fuel : Nat) (buf : List Char) (out inp : Mem)
    (hbuf : (cstr buf).length ≤ MAX_COMMAND_SIZE) :
    (∀ st ∈ get_command_stores fuel buf out inp, st.1 < LOCATION_SIZE) ∧
    (∀ st ∈ get_command_stores fuel buf out inp, st.2 = NUL → st.1 ≤ 99) ∧
    (∀ (signed_char : Bool) (status : Nat) (stdin : Stdin) (r : Input) (b : List Char),
      get_command_input signed_char COMMAND_BUFFER_SIZE status stdin = some r →
      r.command_buffer = some b → (cstr b).length ≤ MAX_COMMAND_SIZE) := by
  refine ⟨get_command_stores_bound fuel buf out inp hbuf, ?_,
    fun signed_char status stdin r b h hb =>
      get_command_input_length signed_char status stdin r b h hb⟩
  intro st hst _
  have := get_command_stores_bound fuel buf out inp hbuf st hst
  simp only [LOCATION_SIZE] at this
  omega

/-- C18, witness: the stores for `a < in | b > out`. -/
theorem C18_location_stores_in_bounds_witness :
    get_command_stores 20 "a < in | b > out".toList (List.replicate LOCATION_SIZE 'x')
        (List.replicate LOCATION_SIZE 'y')
      = [(0, 'i'), (1, 'n'), (2, NUL), (0, 'o'), (1, 'u'), (2, 't'), (3, NUL)] ∧
    ∀ st ∈ get_command_stores 20 "a < in | b > out".toList (List.replicate LOCATION_SIZE 'x')
        (List.replicate LOCATION_SIZE 'y'), st.1 < LOCATION_SIZE :=
  ⟨by decide, (C18_location_stores_in_bounds 20 "a < in | b > out".toList
    (List.replicate LOCATION_SIZE 'x') (List.replicate LOCATION_SIZE 'y') (by decide)).1⟩

end Shell208
